import Mathlib

/-!
Verification of the Shark `RFTrainer` (random forest trainer).

A shallow embedding of `RFTrainer.cpp`.  Numeric `double` values are
modelled by exact rationals, the `UIntVector` class counters by natural
numbers updated modulo 2^32 (the width of `unsigned int`), `std::size_t`
quantities by natural numbers, fallible operations (exceptions thrown by
`totalSumOfSquares`, out-of-bounds element accesses, divisions of a vector
by zero) by `Except`-valued functions, and the global random source
(`rand()`, the generator behind `boost::random_shuffle`) by an explicit
stream `f : Nat -> Nat` of draws together with a cursor that is threaded
through every consumer in program order.  Loops whose termination depends
on the random stream, and the tree-growing recursion, take an explicit
fuel argument; running out of fuel is reported as an `Except` error
distinct from the errors that model C++ failures.
-/

namespace RF

/-- 2^32: modulus of the unsigned 32-bit counters of a `UIntVector`. -/
def W : ℕ := 4294967296

/-- Class count vector (`RFTrainer::ClassVector`, a `UIntVector`). -/
abbrev ClassVector := List ℕ

/-- `++c[l]` on an `unsigned int` entry: increment modulo 2^32.
Writing past the end of the vector is modelled as a no-op of `List.set`. -/
def bump32 (c : ClassVector) (l : ℕ) : ClassVector :=
  c.set l ((c.getD l 0 + 1) % W)

/-- `--c[l]` on an `unsigned int` entry: decrement modulo 2^32. -/
def dec32 (c : ClassVector) (l : ℕ) : ClassVector :=
  c.set l ((c.getD l 0 + (W - 1)) % W)

/-- A `RealVector`, modelled as a list of exact rationals. -/
abbrev RVec := List ℚ

/-- Componentwise `+=` of two `RealVector`s. -/
def vadd (a b : RVec) : RVec := List.zipWith (· + ·) a b

/-- Componentwise `-=` of two `RealVector`s. -/
def vsub (a b : RVec) : RVec := List.zipWith (· - ·) a b

/-- `v /= k` on a `RealVector`. -/
def vdivQ (a : RVec) (k : ℚ) : RVec := a.map (· / k)

/-- Modelled from the spec: `shark::sqr` (Core/Math.hpp is not part of the
sources at hand); the spec's gini formula squares exactly. -/
def sqrQ (x : ℚ) : ℚ := x * x

/-- Modelled from the spec: `norm_sqr` of a `RealVector` (LinAlg is not part
of the sources at hand); squared euclidean norm. -/
def normSqr (v : RVec) : ℚ := (v.map sqrQ).sum

/-- `RFTrainer::RFAttribute`: one `(value, rowId)` entry of an attribute
table. -/
structure RFAttribute where
  value : ℚ
  id : ℕ
deriving DecidableEq, Repr

/-- Default entry used to model reads `tab[i]` through `List.getD`; every
theorem below that depends on an entry's content carries bounds that keep
such reads inside the table. -/
def dfltA : RFAttribute := ⟨0, 0⟩

/-- `RFTrainer::AttributeTable`. -/
abbrev AttributeTable := List RFAttribute

/-- `RFTrainer::AttributeTables`. -/
abbrev AttributeTables := List AttributeTable

/-- The row ids of a table, in table order. -/
def idsOf (t : AttributeTable) : List ℕ := t.map (fun e => e.id)

/-- One flattened `CARTClassifier<RealVector>::NodeInfo` record, with the
fields `RFTrainer::buildTree` writes. -/
structure NodeInfo where
  nodeId : ℕ
  attributeIndex : ℕ
  attributeValue : ℚ
  leftNodeId : ℕ
  rightNodeId : ℕ
  label : RVec
  misclassProp : ℚ
  r : ℕ
  g : ℚ
deriving DecidableEq, Repr

/-- Failure conditions of the embedded trainer.  `fuel` and `rng` report
exhausted fuel of the tree recursion and of the rejection-sampling loop --
artifacts of the embedding; `ub` models an undefined C++ access (read of
`v[0]` on an empty vector, division of a vector by a zero count, `% 0`);
`arg` models the invalid-argument exception of `totalSumOfSquares`. -/
inductive BErr where
  | fuel
  | rng
  | ub
  | arg
deriving DecidableEq, Repr

deriving instance DecidableEq for Except

/-- `RFTrainer::gini`:  `1 - sum_j sqr(count[j]) / n^2`, where the sum is
skipped (`res = 0`) for `n == 0`. -/
def gini (countVector : ClassVector) (n : ℕ) : ℚ :=
  let res : ℚ :=
    if n = 0 then 0
    else (countVector.map (fun (i : ℕ) => sqrQ (i : ℚ) / ((n * n : ℕ) : ℚ))).sum
  1 - res

/-- `RFTrainer::hist`: copy the counts into a real vector and divide by the
total count; dividing by a zero total is the modelled failure. -/
def hist (countVector : ClassVector) : Except BErr RVec :=
  let totalElements := countVector.sum
  if totalElements = 0 then .error .ub
  else .ok (countVector.map (fun (i : ℕ) => (i : ℚ) / (totalElements : ℚ)))

/-- `RFTrainer::average`: `labels[0]` read on an empty vector is the
modelled failure; otherwise fold `+=` and divide by the length. -/
def average (labels : List RVec) : Except BErr RVec :=
  match labels with
  | [] => .error .ub
  | l0 :: rest => .ok (vdivQ (rest.foldl vadd l0) (((rest.length + 1 : ℕ)) : ℚ))

/-- `RFTrainer::totalSumOfSquares`. -/
def totalSumOfSquares (labels : List RVec) (start length : ℕ) (sumLabel : RVec) :
    Except BErr ℚ :=
  if length < 1 then .error .arg
  else if labels.length < start + length then .error .arg
  else
    .ok (((List.range length).map
      (fun i => normSqr (vsub (labels.getD (start + i) []) (vdivQ sumLabel (length : ℚ))))).sum)

/-- The value `totalSumOfSquares` returns when its range check passes. -/
def tssVal (labels : List RVec) (start length : ℕ) (sumLabel : RVec) : ℚ :=
  ((List.range length).map
    (fun i => normSqr (vsub (labels.getD (start + i) []) (vdivQ sumLabel (length : ℚ))))).sum

/-- Lookup in the row->side hash built by `RFTrainer::splitAttributeTables`:
the hash is filled by the assignments `hash[w[i].id] = (i <= valIndex)` for
`i = 0 .. w.length-1`, so for a given key the last assignment wins; a key
never assigned reads back as the default `false` through `operator[]`.
`hashAux w v id m` is the entry for `id` after the first `m` assignments. -/
def hashAux (w : AttributeTable) (v : ℕ) (id : ℕ) : ℕ → Option Bool
  | 0 => none
  | m + 1 =>
    if (w.getD m dfltA).id = id then some (decide (m ≤ v)) else hashAux w v id m

/-- The complete row->side lookup of `RFTrainer::splitAttributeTables`. -/
def hashGet (w : AttributeTable) (v : ℕ) (id : ℕ) : Option Bool :=
  hashAux w v id w.length

/-- `RFTrainer::splitAttributeTables`: partition every table by the side of
each row, preserving the order of each table (one `push_back` pass). -/
def splitAttributeTables (tables : AttributeTables) (index valIndex : ℕ) :
    AttributeTables × AttributeTables :=
  let w := tables.getD index []
  (tables.map (fun t => t.filter (fun e => (hashGet w valIndex e.id).getD false)),
   tables.map (fun t => t.filter (fun e => !(hashGet w valIndex e.id).getD false)))

/-- `RFTrainer::generateRandomTableIndicies`:
`while (s.card < mtry) s.insert(f pos % d)`.  `gfuel` bounds the number of
draws; `d = 0` makes `rand() % d` the modelled undefined behaviour. -/
def genIndicesLoop (f : ℕ → ℕ) (d mtry : ℕ) :
    ℕ → Finset ℕ → ℕ → Except BErr (Finset ℕ × ℕ)
  | 0, s, pos => if mtry ≤ s.card then .ok (s, pos) else .error .rng
  | g + 1, s, pos =>
    if mtry ≤ s.card then .ok (s, pos)
    else if d = 0 then .error .ub
    else genIndicesLoop f d mtry g (insert (f pos % d) s) (pos + 1)

/-- The running best of the classification split search: the fields
`bestAttributeIndex`, `bestAttributeValIndex`, `bestAttributeVal`,
`cBestBelow`, `cBestAbove` of `RFTrainer::buildTree`. -/
structure BestC where
  bestAttributeIndex : ℕ
  bestAttributeValIndex : ℕ
  bestAttributeVal : ℚ
  cBestBelow : ClassVector
  cBestAbove : ClassVector
deriving DecidableEq, Repr

/-- The generic "keep the strictly better candidate" scan: the best of the
`impurity < bestImpurity` updates, folded over the candidates in the order
they are scanned. -/
def selBest {α : Type} (init : ℚ × α) (cs : List (ℚ × α)) : ℚ × α :=
  cs.foldl (fun b c => if c.1 < b.1 then c else b) init

/-- The regression variant: accept when `impurity < bestImpurity` or when
the running best is still the unset sentinel (`bestImpurity < 0`), and
record `doSplit := true` at every accept. -/
def selBestR {α : Type} (init : ℚ × Bool × α) (cs : List (ℚ × α)) : ℚ × Bool × α :=
  cs.foldl (fun b c => if c.1 < b.1 ∨ b.1 < 0 then (c.1, true, c.2) else b) init

/-- Loop body of the classification split scan at inner index `i` (the
state is `(cBelow, cTmpAbove, (bestImpurity, best))`). -/
def innerC (lab : ℕ → ℕ) (tab : AttributeTable) (n a : ℕ)
    (st : ClassVector × ClassVector × (ℚ × BestC)) (i : ℕ) :
    ClassVector × ClassVector × (ℚ × BestC) :=
  let prev := i - 1
  let cBelow := bump32 st.1 (lab (tab.getD prev dfltA).id)
  let cTmpAbove := dec32 st.2.1 (lab (tab.getD prev dfltA).id)
  let best := st.2.2
  if (tab.getD prev dfltA).value ≠ (tab.getD i dfltA).value then
    let n1 := i
    let n2 := n - i
    let impurity := (n1 : ℚ) * gini cBelow n1 + (n2 : ℚ) * gini cTmpAbove n2
    if impurity < best.1 then
      (cBelow, cTmpAbove,
        (impurity, ⟨a, prev, (tab.getD prev dfltA).value, cBelow, cTmpAbove⟩))
    else (cBelow, cTmpAbove, best)
  else (cBelow, cTmpAbove, best)

/-- Classification split scan of one feature's table: `cBelow` restarts
from zeros, `cTmpAbove` from a copy of `cAbove`, and the inner loop runs
over `i = 1 .. n-1`. -/
def scanFeatureC (lab : ℕ → ℕ) (K : ℕ) (cAbove : ClassVector)
    (tab : AttributeTable) (n a : ℕ) (best : ℚ × BestC) : ℚ × BestC :=
  ((List.range' 1 (n - 1)).foldl (innerC lab tab n a)
    (List.replicate K 0, cAbove, best)).2.2

/-- The whole classification split search of `RFTrainer::buildTree`: the
chosen features are visited in ascending order (iteration order of the
`std::set`), starting from the sentinel `bestImpurity = n + 1` and
zero-initialised best fields. -/
def scanC (lab : ℕ → ℕ) (K : ℕ) (tables : AttributeTables)
    (cAbove : ClassVector) (n : ℕ) (idxs : Finset ℕ) : ℚ × BestC :=
  (idxs.sort (· ≤ ·)).foldl
    (fun best a => scanFeatureC lab K cAbove (tables.getD a []) n a best)
    ((n : ℚ) + 1, ⟨0, 0, 0, List.replicate K 0, List.replicate K 0⟩)

/-- Cumulative class counts of the scanned prefix: the value of `cBelow`
after the increments of inner indices `1 .. i` (entries `0 .. i-1`). -/
def cntBelow (lab : ℕ → ℕ) (K : ℕ) (tab : AttributeTable) (i : ℕ) : ClassVector :=
  (List.range i).foldl (fun c k => bump32 c (lab (tab.getD k dfltA).id))
    (List.replicate K 0)

/-- Complement counts: `cAbove` after the decrements of the same prefix. -/
def cntAbove (lab : ℕ → ℕ) (cAbove : ClassVector) (tab : AttributeTable) (i : ℕ) :
    ClassVector :=
  (List.range i).foldl (fun c k => dec32 c (lab (tab.getD k dfltA).id)) cAbove

/-- The candidate of the classification scan at inner index `i`: a position
qualifies only when `tab[i-1].value != tab[i].value`, and its size-weighted
impurity is `n1 * gini(cBelow, n1) + n2 * gini(cAbove, n2)` for `n1 = i`,
`n2 = n - i`. -/
def candAtC (lab : ℕ → ℕ) (K : ℕ) (cAbove : ClassVector)
    (tab : AttributeTable) (n a i : ℕ) : Option (ℚ × BestC) :=
  if (tab.getD (i - 1) dfltA).value ≠ (tab.getD i dfltA).value then
    some ((i : ℚ) * gini (cntBelow lab K tab i) i
            + ((n - i : ℕ) : ℚ) * gini (cntAbove lab cAbove tab i) (n - i),
          ⟨a, i - 1, (tab.getD (i - 1) dfltA).value,
           cntBelow lab K tab i, cntAbove lab cAbove tab i⟩)
  else none

/-- Candidate boundaries of one feature, in boundary order. -/
def candsFeatureC (lab : ℕ → ℕ) (K : ℕ) (cAbove : ClassVector)
    (tab : AttributeTable) (n a : ℕ) : List (ℚ × BestC) :=
  (List.range' 1 (n - 1)).filterMap (candAtC lab K cAbove tab n a)

/-- All classification candidates, in scan order: features ascending, then
boundaries left to right. -/
def candsC (lab : ℕ → ℕ) (K : ℕ) (tables : AttributeTables)
    (cAbove : ClassVector) (n : ℕ) (idxs : Finset ℕ) : List (ℚ × BestC) :=
  ((idxs.sort (· ≤ ·)).map
    (fun a => candsFeatureC lab K cAbove (tables.getD a []) n a)).flatten

/-- The running best of the regression split search, including the saved
copy `bestLabels` of the winning feature's label table. -/
structure BestR where
  bestAttributeIndex : ℕ
  bestAttributeValIndex : ℕ
  bestAttributeVal : ℚ
  bestLabels : List RVec
deriving DecidableEq, Repr

/-- Loop body of the regression split scan at inner index `i`; the state is
`(labelSumAbove, labelSumBelow, (bestImpurity, doSplit, best))` and the two
running sums are updated after the boundary test, exactly as in the code. -/
def innerR (tab : AttributeTable) (tmpLabels : List RVec) (n a : ℕ)
    (st : RVec × RVec × (ℚ × Bool × BestR)) (i : ℕ) :
    Except BErr (RVec × RVec × (ℚ × Bool × BestR)) := do
  let prev := i - 1
  let best ←
    if (tab.getD prev dfltA).value ≠ (tab.getD i dfltA).value then do
      let n1 := i
      let n2 := n - i
      let tA ← totalSumOfSquares tmpLabels 0 n1 st.1
      let tB ← totalSumOfSquares tmpLabels n1 n2 st.2.1
      let impurity := ((n1 : ℚ) * tA + (n2 : ℚ) * tB) / (n : ℚ)
      pure (if impurity < st.2.2.1 ∨ st.2.2.1 < 0 then
              (impurity, true, (⟨a, prev, (tab.getD prev dfltA).value, tmpLabels⟩ : BestR))
            else st.2.2)
    else pure st.2.2
  pure (vadd st.1 (tmpLabels.getD i []), vsub st.2.1 (tmpLabels.getD i []), best)

/-- Regression split scan of one feature: build the label table in the
feature's sort order, seed the running sums with `tmpLabels[0]` (an empty
table makes that read the modelled failure), loop over `i = 1 .. n-1`. -/
def scanFeatureR (labR : ℕ → RVec) (L : ℕ) (tab : AttributeTable) (n a : ℕ)
    (best : ℚ × Bool × BestR) : Except BErr (ℚ × Bool × BestR) := do
  let tmpLabels := tab.map (fun e => labR e.id)
  let sumAll := tmpLabels.foldl vadd (List.replicate L 0)
  match tmpLabels with
  | [] => .error .ub
  | t0 :: _ => do
    let st ← (List.range' 1 (n - 1)).foldlM (innerR tab tmpLabels n a)
      (vadd (List.replicate L 0) t0, vsub sumAll t0, best)
    pure st.2.2

/-- The whole regression split search: features ascending, sentinel
`bestImpurity = -1`, `doSplit = false`, empty initial `bestLabels`. -/
def scanR (labR : ℕ → RVec) (L : ℕ) (tables : AttributeTables) (n : ℕ)
    (idxs : Finset ℕ) : Except BErr (ℚ × Bool × BestR) :=
  (idxs.sort (· ≤ ·)).foldlM
    (fun best a => scanFeatureR labR L (tables.getD a []) n a best)
    ((-1 : ℚ), false, (⟨0, 0, 0, []⟩ : BestR))

/-- Prefix sum of the first `i` labels of a feature's label table (the
value of `labelSumAbove` when the scan reaches inner index `i`). -/
def vsumPref (L : ℕ) (tmp : List RVec) (i : ℕ) : RVec :=
  (List.range i).foldl (fun s k => vadd s (tmp.getD k [])) (List.replicate L 0)

/-- The complementary running sum (the value of `labelSumBelow` at inner
index `i`): the total sum minus the same prefix, by successive `-=`. -/
def vsubPref (L : ℕ) (tmp : List RVec) (i : ℕ) : RVec :=
  (List.range i).foldl (fun s k => vsub s (tmp.getD k []))
    (tmp.foldl vadd (List.replicate L 0))

/-- The candidate of the regression scan at inner index `i`, with the
size-weighted impurity `(n1*SSE(left) + n2*SSE(right)) / n`. -/
def candAtR (L : ℕ) (tmp : List RVec) (tab : AttributeTable) (n a i : ℕ) :
    Option (ℚ × BestR) :=
  if (tab.getD (i - 1) dfltA).value ≠ (tab.getD i dfltA).value then
    some ((((i : ℚ) * tssVal tmp 0 i (vsumPref L tmp i)
             + ((n - i : ℕ) : ℚ) * tssVal tmp i (n - i) (vsubPref L tmp i)) / (n : ℚ)),
          ⟨a, i - 1, (tab.getD (i - 1) dfltA).value, tmp⟩)
  else none

/-- Candidate boundaries of one feature in the regression scan. -/
def candsFeatureR (labR : ℕ → RVec) (L : ℕ) (tab : AttributeTable) (n a : ℕ) :
    List (ℚ × BestR) :=
  (List.range' 1 (n - 1)).filterMap (candAtR L (tab.map (fun e => labR e.id)) tab n a)

/-- All regression candidates, in scan order. -/
def candsR (labR : ℕ → RVec) (L : ℕ) (tables : AttributeTables) (n : ℕ)
    (idxs : Finset ℕ) : List (ℚ × BestR) :=
  ((idxs.sort (· ≤ ·)).map
    (fun a => candsFeatureR labR L (tables.getD a []) n a)).flatten

/-- `RFTrainer::buildTree` (classification).  `fu` is the recursion fuel,
`gfuel` the fuel of each `generateRandomTableIndicies` call, `lab` the
label of a (bagged) dataset row, `f`/`pos` the random stream and cursor. -/
def buildTreeC (nodeSize K mtry d gfuel : ℕ) (lab : ℕ → ℕ) (f : ℕ → ℕ) :
    ℕ → AttributeTables → ClassVector → ℕ → ℕ → Except BErr (List NodeInfo × ℕ)
  | 0, _, _, _, _ => .error .fuel
  | fu + 1, tables, cAbove, nodeId, pos =>
    if tables.isEmpty then .error .ub
    else
      let n := (tables.headD []).length
      let base : NodeInfo := ⟨nodeId, 0, 0, 0, 0, [], 0, 0, 0⟩
      if gini cAbove n = 0 ∨ n ≤ nodeSize then
        match hist cAbove with
        | .error e => .error e
        | .ok h => .ok ([{ base with label := h }], pos)
      else
        match genIndicesLoop f d mtry gfuel ∅ pos with
        | .error e => .error e
        | .ok (idxs, pos1) =>
          let best := scanC lab K tables cAbove n idxs
          if best.1 < (n : ℚ) + 1 then
            let s := splitAttributeTables tables best.2.bestAttributeIndex
              best.2.bestAttributeValIndex
            match buildTreeC nodeSize K mtry d gfuel lab f fu s.1
                best.2.cBestBelow (2 * nodeId + 1) pos1 with
            | .error e => .error e
            | .ok (lT, pos2) =>
              match buildTreeC nodeSize K mtry d gfuel lab f fu s.2
                  best.2.cBestAbove (2 * nodeId + 2) pos2 with
              | .error e => .error e
              | .ok (rT, pos3) =>
                .ok ({ base with
                        attributeIndex := best.2.bestAttributeIndex,
                        attributeValue := best.2.bestAttributeVal,
                        leftNodeId := 2 * nodeId + 1,
                        rightNodeId := 2 * nodeId + 2 } :: (lT ++ rT), pos3)
          else
            match hist cAbove with
            | .error e => .error e
            | .ok h => .ok ([{ base with label := h }], pos)

/-- `RFTrainer::buildTree` (regression).  The node label is the average of
the node's labels, computed before anything else, as in the code. -/
def buildTreeR (nodeSize L mtry d gfuel : ℕ) (labR : ℕ → RVec) (f : ℕ → ℕ) :
    ℕ → AttributeTables → List RVec → ℕ → ℕ → Except BErr (List NodeInfo × ℕ)
  | 0, _, _, _, _ => .error .fuel
  | fu + 1, tables, labels, nodeId, pos =>
    match average labels with
    | .error e => .error e
    | .ok avg =>
      if tables.isEmpty then .error .ub
      else
        let n := (tables.headD []).length
        let base : NodeInfo := ⟨nodeId, 0, 0, 0, 0, avg, 0, 0, 0⟩
        if n ≤ nodeSize then .ok ([base], pos)
        else
          match genIndicesLoop f d mtry gfuel ∅ pos with
          | .error e => .error e
          | .ok (idxs, pos1) =>
            match scanR labR L tables n idxs with
            | .error e => .error e
            | .ok best =>
              if best.2.1 then
                let vIdx := best.2.2.bestAttributeValIndex
                let s := splitAttributeTables tables best.2.2.bestAttributeIndex vIdx
                let lLabels := best.2.2.bestLabels.take (vIdx + 1)
                let rLabels := best.2.2.bestLabels.drop (vIdx + 1)
                match buildTreeR nodeSize L mtry d gfuel labR f fu s.1
                    lLabels (2 * nodeId + 1) pos1 with
                | .error e => .error e
                | .ok (lT, pos2) =>
                  match buildTreeR nodeSize L mtry d gfuel labR f fu s.2
                      rLabels (2 * nodeId + 2) pos2 with
                  | .error e => .error e
                  | .ok (rT, pos3) =>
                    .ok ({ base with
                            attributeIndex := best.2.2.bestAttributeIndex,
                            attributeValue := best.2.2.bestAttributeVal,
                            leftNodeId := 2 * nodeId + 1,
                            rightNodeId := 2 * nodeId + 2 } :: (lT ++ rT), pos3)
              else .ok ([base], pos1)

/-- `boost::random_shuffle` driven by the explicit random stream: a
deterministic shuffle that repeatedly extracts the element at a
stream-chosen position.  Only two facts about it are used: it permutes its
input and it is a function of the stream. -/
def shuffleSel (f : ℕ → ℕ) : ℕ → List ℕ → List ℕ × ℕ
  | pos, [] => ([], pos)
  | pos, x :: xs =>
    let l := x :: xs
    let a := l.getD (f pos % l.length) 0
    let res := shuffleSel f (pos + 1) (l.erase a)
    (a :: res.1, res.2)
  termination_by pos l => l.length
  decreasing_by
    have hm : (x :: xs).getD (f pos % (x :: xs).length) 0 ∈ x :: xs := by
      rw [List.getD_eq_getElem _ _ (Nat.mod_lt _ (by simp))]
      exact List.getElem_mem _
    rw [List.length_erase_of_mem hm]
    simp

/-- One bagging draw of `RFTrainer::train`: shuffle the row indices
`0 .. n-1`; the first `floor(n * oobRatio)` indices (`static_cast` of the
product truncates) are the training bag, the rest the OOB sample. -/
def bagDraw (f : ℕ → ℕ) (pos n : ℕ) (ratio : ℚ) : (List ℕ × List ℕ) × ℕ :=
  let sh := shuffleSel f pos (List.range n)
  let subsetSize := ⌊(n : ℚ) * ratio⌋₊
  ((sh.1.take subsetSize, sh.1.drop subsetSize), sh.2)

/-- `RFTrainer::createAttributeTables`: one `(value, rowId)` table per
feature, sorted ascending by value (`std::sort` with `tableSort`). -/
def createAttributeTables (inputs : List RVec) (d : ℕ) : AttributeTables :=
  (List.range d).map (fun j =>
    ((List.range inputs.length).map
      (fun i => RFAttribute.mk ((inputs.getD i []).getD j 0) i)).mergeSort
      (fun a b => decide (a.value ≤ b.value)))

/-- `RFTrainer::createCountVector`: count every row's label into a vector
of `K = maxLabel + 1` unsigned counters. -/
def createCountVector (labList : List ℕ) (K : ℕ) : ClassVector :=
  labList.foldl (fun c l => bump32 c l) (List.replicate K 0)

/-- The trainer configuration: `m_try`, `m_B`, `m_nodeSize`, `m_OOBratio`. -/
structure RFConfig where
  mTry : ℕ
  nTrees : ℕ
  nodeSize : ℕ
  oobRatio : ℚ
deriving DecidableEq, Repr

/-- `ceil(sqrt(d))` on exact naturals. -/
def ceilSqrtNat (d : ℕ) : ℕ :=
  if Nat.sqrt d * Nat.sqrt d = d then Nat.sqrt d else Nat.sqrt d + 1

/-- `ceil(d / 3.0)` on exact naturals. -/
def ceilDiv3 (d : ℕ) : ℕ := (d + 2) / 3

/-- `RFTrainer::setDefaults`: fill every zero field with its default and
reset an out-of-range `m_OOBratio` to `0.66`. -/
def setDefaults (cfg : RFConfig) (d : ℕ) (regression : Bool) : RFConfig :=
  let c1 := if cfg.mTry = 0 then
      { cfg with mTry := if regression then ceilDiv3 d else ceilSqrtNat d }
    else cfg
  let c2 := if c1.nTrees = 0 then { c1 with nTrees := 100 } else c1
  let c3 := if c2.nodeSize = 0 then
      { c2 with nodeSize := if regression then 5 else 1 }
    else c2
  if c3.oobRatio ≤ 0 ∨ 1 < c3.oobRatio then { c3 with oobRatio := 33 / 50 } else c3

/-- `RFTrainer::train` (classification), single-task execution: the `m_B`
tree builds run in order, all randomness drawn from the one stream `f`.
`inputs`/`clab` are the dataset rows and labels, `K` the number of classes.
The result is the ensemble: the list of flattened trees, in build order. -/
def trainC (cfg0 : RFConfig) (inputs : List RVec) (clab : List ℕ) (K : ℕ)
    (f : ℕ → ℕ) (gfuel : ℕ) : Except BErr (List (List NodeInfo)) :=
  let d := (inputs.headD []).length
  let cfg := setDefaults cfg0 d false
  let n := inputs.length
  (((List.range cfg.nTrees).foldlM
    (fun (acc : List (List NodeInfo) × ℕ) (_ : ℕ) => do
      let bd := bagDraw f acc.2 n cfg.oobRatio
      let bag := bd.1.1
      let bagInputs := bag.map (fun i => inputs.getD i [])
      let tables := createAttributeTables bagInputs d
      let labFun : ℕ → ℕ := fun i => clab.getD (bag.getD i 0) 0
      let cAbove := createCountVector (bag.map (fun i => clab.getD i 0)) K
      let r ← buildTreeC cfg.nodeSize K cfg.mTry d gfuel labFun f
        (bag.length + 1) tables cAbove 0 bd.2
      pure (acc.1 ++ [r.1], r.2)) ([], 0)).map Prod.fst)

/-- `RFTrainer::train` (regression), single-task execution. -/
def trainR (cfg0 : RFConfig) (inputs : List RVec) (rlab : List RVec) (L : ℕ)
    (f : ℕ → ℕ) (gfuel : ℕ) : Except BErr (List (List NodeInfo)) :=
  let d := (inputs.headD []).length
  let cfg := setDefaults cfg0 d true
  let n := inputs.length
  (((List.range cfg.nTrees).foldlM
    (fun (acc : List (List NodeInfo) × ℕ) (_ : ℕ) => do
      let bd := bagDraw f acc.2 n cfg.oobRatio
      let bag := bd.1.1
      let bagInputs := bag.map (fun i => inputs.getD i [])
      let tables := createAttributeTables bagInputs d
      let labFun : ℕ → RVec := fun i => rlab.getD (bag.getD i 0) []
      let labels := bag.map (fun i => rlab.getD i [])
      let r ← buildTreeR cfg.nodeSize L cfg.mTry d gfuel labFun f
        (bag.length + 1) tables labels 0 bd.2
      pure (acc.1 ++ [r.1], r.2)) ([], 0)).map Prod.fst)

/-- A list of `NodeInfo` is the preorder flattening of a binary tree rooted
at heap id `k`: the node itself, then the whole left subtree (ids rooted at
`2k+1`), then the whole right subtree (ids rooted at `2k+2`); leaves carry
the sentinel child ids `0`. -/
inductive PreFlat : ℕ → List NodeInfo → Prop where
  | leaf : ∀ (k : ℕ) (nd : NodeInfo),
      nd.nodeId = k → nd.leftNodeId = 0 → nd.rightNodeId = 0 → PreFlat k [nd]
  | node : ∀ (k : ℕ) (nd : NodeInfo) (l r : List NodeInfo),
      nd.nodeId = k → nd.leftNodeId = 2 * k + 1 → nd.rightNodeId = 2 * k + 2 →
      PreFlat (2 * k + 1) l → PreFlat (2 * k + 2) r → PreFlat k (nd :: (l ++ r))

/-! ### Helper lemmas -/

theorem shuffleSel_perm (f : ℕ → ℕ) (pos : ℕ) (l : List ℕ) :
    ((shuffleSel f pos l).1).Perm l := by
  generalize hn : l.length = n
  induction n using Nat.strong_induction_on generalizing pos l with
  | _ n ih =>
    cases l with
    | nil => simp [shuffleSel]
    | cons x xs =>
      rw [shuffleSel]
      have hm : (x :: xs).getD (f pos % (x :: xs).length) 0 ∈ x :: xs := by
        rw [List.getD_eq_getElem _ _ (Nat.mod_lt _ (by simp))]
        exact List.getElem_mem _
      have hlt : ((x :: xs).erase ((x :: xs).getD (f pos % (x :: xs).length) 0)).length < n := by
        rw [List.length_erase_of_mem hm]
        simp [← hn]
      have ih2 := ih _ hlt (pos + 1)
        ((x :: xs).erase ((x :: xs).getD (f pos % (x :: xs).length) 0)) rfl
      exact (ih2.cons _).trans (List.perm_cons_erase hm).symm

/-! ### C4: the Gini impurity -/

/-- C4.  `gini(c, n)` is `1` when `n = 0` and `1 - Σ_j (c[j]/n)^2` when
`n > 0`; it is `0` when all mass is in one class and `1 - 1/K` on a uniform
`K`-class distribution. -/
theorem gini_spec :
    (∀ c : ClassVector, gini c 0 = 1) ∧
    (∀ (c : ClassVector) (n : ℕ), 0 < n →
      gini c n = 1 - (c.map (fun (i : ℕ) => ((i : ℚ) / (n : ℚ)) ^ 2)).sum) ∧
    (∀ (a b n : ℕ), 0 < n →
      gini (List.replicate a 0 ++ n :: List.replicate b 0) n = 0) ∧
    (∀ (k m : ℕ), 0 < m → 0 < k →
      gini (List.replicate k m) (k * m) = 1 - 1 / (k : ℚ)) := by
  have hfun : ∀ n : ℕ, 0 < n →
      (fun (i : ℕ) => sqrQ (i : ℚ) / ((n * n : ℕ) : ℚ)) =
        fun (i : ℕ) => ((i : ℚ) / (n : ℚ)) ^ 2 := by
    intro n hn
    funext i
    have hnz : (n : ℚ) ≠ 0 := Nat.cast_ne_zero.mpr hn.ne'
    push_cast
    field_simp [sqrQ]
    ring
  refine ⟨fun c => by simp [gini], fun c n hn => ?_, fun a b n hn => ?_, fun k m hm hk => ?_⟩
  · simp only [gini, if_neg hn.ne', hfun n hn]
  · have hnz : (n : ℚ) ≠ 0 := Nat.cast_ne_zero.mpr hn.ne'
    simp only [gini, if_neg hn.ne', hfun n hn, List.map_append, List.map_cons,
      List.map_replicate, List.sum_append, List.sum_cons, List.sum_replicate]
    rw [div_pow, div_self (by positivity)]
    simp
  · have hn : 0 < k * m := Nat.mul_pos hk hm
    have hkz : (k : ℚ) ≠ 0 := Nat.cast_ne_zero.mpr hk.ne'
    have hmz : (m : ℚ) ≠ 0 := Nat.cast_ne_zero.mpr hm.ne'
    simp only [gini, if_neg hn.ne', hfun _ hn, List.map_replicate, List.sum_replicate,
      nsmul_eq_mul]
    rw [div_pow]
    push_cast
    field_simp
    ring

/-- Witness for C4: concrete pure and uniform class count vectors. -/
theorem gini_spec_witness :
    (0 : ℕ) < 2 ∧
    gini (List.replicate 0 0 ++ 2 :: List.replicate 1 0) 2 = 0 ∧
    gini (List.replicate 2 1) (2 * 1) = 1 - 1 / (2 : ℚ) :=
  ⟨by decide, gini_spec.2.2.1 0 1 2 (by decide), gini_spec.2.2.2 2 1 (by decide) (by decide)⟩

/-! ### C5: totalSumOfSquares -/

/-- C5.  `totalSumOfSquares` fails with the invalid-argument error exactly
when `length < 1` or `start + length > labels.size()`, and otherwise
returns `Σ_i ‖labels[start+i] − sumLabel/length‖²`. -/
theorem totalSumOfSquares_spec :
    ∀ (labels : List RVec) (start len : ℕ) (sumLabel : RVec),
      (totalSumOfSquares labels start len sumLabel = .error .arg ↔
        len < 1 ∨ start + len > labels.length) ∧
      (¬(len < 1 ∨ start + len > labels.length) →
        totalSumOfSquares labels start len sumLabel =
          .ok (tssVal labels start len sumLabel)) := by
  intro labels start len sumLabel
  constructor
  · by_cases h1 : len < 1
    · simp [totalSumOfSquares, h1]
    · by_cases h2 : labels.length < start + len
      · simp [totalSumOfSquares, h1, h2]
      · simp [totalSumOfSquares, h1, h2]
  · intro h
    push_neg at h
    obtain ⟨ha, hb⟩ := h
    simp only [totalSumOfSquares, if_neg (by omega : ¬ len < 1),
      if_neg (by omega : ¬ labels.length < start + len), tssVal]

/-- Witness for C5: two one-dimensional labels, full range. -/
theorem totalSumOfSquares_witness :
    ¬((2 : ℕ) < 1 ∨ 0 + 2 > ([[(1 : ℚ)], [3]] : List RVec).length) ∧
    totalSumOfSquares [[(1 : ℚ)], [3]] 0 2 [4] = .ok (tssVal [[(1 : ℚ)], [3]] 0 2 [4]) ∧
    tssVal [[(1 : ℚ)], [3]] 0 2 [4] = 2 :=
  ⟨by decide, (totalSumOfSquares_spec [[(1 : ℚ)], [3]] 0 2 [4]).2 (by decide),
    by with_unfolding_all decide⟩

/-! ### C8: setDefaults -/

/-- C8.  `setDefaults` rewrites exactly the zero fields with the documented
defaults, resets `oobRatio` to `0.66` exactly when it is outside `(0, 1]`,
leaves every other field unchanged and cannot fail; `ceilSqrtNat` and
`ceilDiv3` are the exact ceilings `⌈√d⌉` and `⌈d/3⌉`. -/
theorem setDefaults_spec :
    (∀ (cfg : RFConfig) (d : ℕ) (regression : Bool),
      setDefaults cfg d regression =
        { mTry := if cfg.mTry = 0 then
              (if regression then ceilDiv3 d else ceilSqrtNat d) else cfg.mTry,
          nTrees := if cfg.nTrees = 0 then 100 else cfg.nTrees,
          nodeSize := if cfg.nodeSize = 0 then (if regression then 5 else 1) else cfg.nodeSize,
          oobRatio := if cfg.oobRatio ≤ 0 ∨ 1 < cfg.oobRatio then 33 / 50
            else cfg.oobRatio }) ∧
    (∀ d : ℕ, d ≤ ceilSqrtNat d * ceilSqrtNat d ∧
      ∀ k : ℕ, d ≤ k * k → ceilSqrtNat d ≤ k) ∧
    (∀ d : ℕ, d ≤ 3 * ceilDiv3 d ∧ ∀ k : ℕ, d ≤ 3 * k → ceilDiv3 d ≤ k) := by
  refine ⟨?_, ?_, ?_⟩
  · intro cfg d reg
    obtain ⟨mt, nt, ns, ob⟩ := cfg
    by_cases h1 : mt = 0 <;> by_cases h2 : nt = 0 <;> by_cases h3 : ns = 0 <;>
      by_cases h4 : ob ≤ 0 ∨ 1 < ob <;>
      simp [setDefaults, h1, h2, h3, h4]
  · intro d
    constructor
    · by_cases h : Nat.sqrt d * Nat.sqrt d = d
      · simp [ceilSqrtNat, h]
      · simp only [ceilSqrtNat, if_neg h]
        have h2 : d < (Nat.sqrt d + 1) * (Nat.sqrt d + 1) := by
          simpa [Nat.succ_eq_add_one] using Nat.lt_succ_sqrt d
        omega
    · intro k hk
      have hs : Nat.sqrt d ≤ k := by
        calc Nat.sqrt d ≤ Nat.sqrt (k * k) := Nat.sqrt_le_sqrt hk
        _ = k := Nat.sqrt_eq k
      by_cases h : Nat.sqrt d * Nat.sqrt d = d
      · simpa [ceilSqrtNat, h] using hs
      · simp only [ceilSqrtNat, if_neg h]
        rcases Nat.lt_or_ge k (Nat.sqrt d + 1) with hlt | hge
        · exfalso
          have hks : k ≤ Nat.sqrt d := by omega
          have h1 : k * k ≤ Nat.sqrt d * Nat.sqrt d := Nat.mul_le_mul hks hks
          have h2 : Nat.sqrt d * Nat.sqrt d ≤ d := Nat.sqrt_le d
          omega
        · exact hge
  · intro d
    constructor
    · simp only [ceilDiv3]
      omega
    · intro k hk
      simp only [ceilDiv3]
      omega

/-- Witness for C8: an all-unset classification configuration with an
out-of-range OOB ratio, and the ceiling minimality at `d = 10`. -/
theorem setDefaults_witness :
    setDefaults ⟨0, 0, 0, 2⟩ 10 false =
      { mTry := if (0 : ℕ) = 0 then (if false then ceilDiv3 10 else ceilSqrtNat 10) else 0,
        nTrees := if (0 : ℕ) = 0 then 100 else 0,
        nodeSize := if (0 : ℕ) = 0 then (if false then 5 else 1) else 0,
        oobRatio := if (2 : ℚ) ≤ 0 ∨ 1 < (2 : ℚ) then 33 / 50 else 2 } ∧
    (10 : ℕ) ≤ 4 * 4 ∧ ceilSqrtNat 10 ≤ 4 ∧ ceilSqrtNat 10 = 4 :=
  ⟨setDefaults_spec.1 ⟨0, 0, 0, 2⟩ 10 false, by decide,
    (setDefaults_spec.2.1 10).2 4 (by decide), by with_unfolding_all decide⟩

/-! ### C6: the bagging draw -/

/-- C6.  Each tree task's bag is the first `⌊n·oobRatio⌋` entries of a
permutation of the `n` row indices and the OOB sample is the rest; the two
are disjoint and their lengths sum to `n`. -/
theorem bagDraw_spec :
    ∀ (f : ℕ → ℕ) (pos n : ℕ) (ratio : ℚ),
      ((shuffleSel f pos (List.range n)).1).Perm (List.range n) ∧
      (bagDraw f pos n ratio).1.1 =
        (shuffleSel f pos (List.range n)).1.take ⌊(n : ℚ) * ratio⌋₊ ∧
      (bagDraw f pos n ratio).1.2 =
        (shuffleSel f pos (List.range n)).1.drop ⌊(n : ℚ) * ratio⌋₊ ∧
      List.Disjoint (bagDraw f pos n ratio).1.1 (bagDraw f pos n ratio).1.2 ∧
      (bagDraw f pos n ratio).1.1.length + (bagDraw f pos n ratio).1.2.length = n := by
  intro f pos n ratio
  have hperm := shuffleSel_perm f pos (List.range n)
  have hnd : ((shuffleSel f pos (List.range n)).1).Nodup :=
    hperm.symm.nodup (List.nodup_range n)
  refine ⟨hperm, rfl, rfl, ?_, ?_⟩
  · have h2 := hnd
    rw [← List.take_append_drop ⌊(n : ℚ) * ratio⌋₊ (shuffleSel f pos (List.range n)).1,
      List.nodup_append] at h2
    exact h2.2.2
  · show ((shuffleSel f pos (List.range n)).1.take _).length +
      ((shuffleSel f pos (List.range n)).1.drop _).length = n
    rw [← List.length_append, List.take_append_drop, hperm.length_eq, List.length_range]

/-! ### C9: generateRandomTableIndicies -/

/-- The stream `f`, read from cursor `pos`, hits every residue modulo `d`
within its next `N` draws. -/
abbrev coversAll (f : ℕ → ℕ) (d pos N : ℕ) : Prop :=
  ∀ r ∈ Finset.range d, ∃ k ∈ Finset.range N, f (pos + k) % d = r

theorem genLoop_ok (f : ℕ → ℕ) (d mtry : ℕ) :
    ∀ (g : ℕ) (s : Finset ℕ) (pos : ℕ) (s' : Finset ℕ) (pos' : ℕ),
      genIndicesLoop f d mtry g s pos = .ok (s', pos') →
      (s.card ≤ mtry → s'.card = mtry) ∧ ∀ x ∈ s', x ∈ s ∨ x < d := by
  intro g
  induction g with
  | zero =>
    intro s pos s' pos' h
    simp only [genIndicesLoop] at h
    split at h
    · next hc =>
      obtain ⟨rfl, rfl⟩ : s = s' ∧ pos = pos' := by
        cases h
        exact ⟨rfl, rfl⟩
      exact ⟨fun hle => le_antisymm hle hc, fun x hx => Or.inl hx⟩
    · cases h
  | succ g ih =>
    intro s pos s' pos' h
    simp only [genIndicesLoop] at h
    split at h
    · next hc =>
      obtain ⟨rfl, rfl⟩ : s = s' ∧ pos = pos' := by
        cases h
        exact ⟨rfl, rfl⟩
      exact ⟨fun hle => le_antisymm hle hc, fun x hx => Or.inl hx⟩
    · next hc =>
      split at h
      · cases h
      · next hd =>
        obtain ⟨h1, h2⟩ := ih _ _ _ _ h
        refine ⟨fun hle => h1 ?_, fun x hx => ?_⟩
        · calc (insert (f pos % d) s).card ≤ s.card + 1 := Finset.card_insert_le _ _
          _ ≤ mtry := by omega
        · rcases h2 x hx with hx' | hx'
          · rcases Finset.mem_insert.mp hx' with hx'' | hx''
            · exact Or.inr (hx'' ▸ Nat.mod_lt _ (Nat.pos_of_ne_zero hd))
            · exact Or.inl hx''
          · exact Or.inr hx'

theorem genLoop_term (f : ℕ → ℕ) (d mtry : ℕ) (hmd : mtry ≤ d) :
    ∀ (g : ℕ) (s : Finset ℕ) (pos : ℕ),
      (∀ r ∈ Finset.range d, r ∈ s ∨ ∃ k ∈ Finset.range g, f (pos + k) % d = r) →
      ∃ s' pos', genIndicesLoop f d mtry g s pos = .ok (s', pos') := by
  intro g
  induction g with
  | zero =>
    intro s pos hcov
    have hsub : Finset.range d ⊆ s := by
      intro r hr
      rcases hcov r hr with h | h
      · exact h
      · simp at h
    have hcard : d ≤ s.card := by
      calc d = (Finset.range d).card := (Finset.card_range d).symm
      _ ≤ s.card := Finset.card_le_card hsub
    exact ⟨s, pos, by simp [genIndicesLoop, le_trans hmd hcard]⟩
  | succ g ih =>
    intro s pos hcov
    by_cases hc : mtry ≤ s.card
    · exact ⟨s, pos, by simp [genIndicesLoop, hc]⟩
    · have hd : d ≠ 0 := by
        intro h
        subst h
        omega
      have hcov' : ∀ r ∈ Finset.range d,
          r ∈ insert (f pos % d) s ∨ ∃ k ∈ Finset.range g, f (pos + 1 + k) % d = r := by
        intro r hr
        rcases hcov r hr with h | h
        · exact Or.inl (Finset.mem_insert_of_mem h)
        · obtain ⟨k, hk, hfk⟩ := h
          cases k with
          | zero => exact Or.inl (by simp [← hfk, Finset.mem_insert])
          | succ k' =>
            refine Or.inr ⟨k', ?_, ?_⟩
            · simp only [Finset.mem_range] at hk ⊢
              omega
            · have harg : pos + 1 + k' = pos + (k' + 1) := by omega
              rw [harg, hfk]
      obtain ⟨s', pos', h⟩ := ih (insert (f pos % d) s) (pos + 1) hcov'
      exact ⟨s', pos', by simp only [genIndicesLoop, if_neg hc, if_neg hd]; exact h⟩

theorem genLoop_stuck (f : ℕ → ℕ) (d mtry : ℕ) (hdm : d < mtry) :
    ∀ (g : ℕ) (s : Finset ℕ) (pos : ℕ), (∀ x ∈ s, x < d) →
      ∀ s' pos', genIndicesLoop f d mtry g s pos ≠ .ok (s', pos') := by
  intro g
  induction g with
  | zero =>
    intro s pos hs s' pos'
    have hcard : s.card ≤ d := by
      calc s.card ≤ (Finset.range d).card := by
            refine Finset.card_le_card ?_
            intro x hx
            exact Finset.mem_range.mpr (hs x hx)
      _ = d := Finset.card_range d
    have hle : ¬ mtry ≤ s.card := by omega
    simp [genIndicesLoop, hle]
  | succ g ih =>
    intro s pos hs s' pos'
    have hcard : s.card ≤ d := by
      calc s.card ≤ (Finset.range d).card := by
            refine Finset.card_le_card ?_
            intro x hx
            exact Finset.mem_range.mpr (hs x hx)
      _ = d := Finset.card_range d
    have hle : ¬ mtry ≤ s.card := by omega
    simp only [genIndicesLoop, if_neg hle]
    split
    · simp
    · next hd =>
      refine ih _ _ ?_ s' pos'
      intro x hx
      rcases Finset.mem_insert.mp hx with h | h
      · exact h ▸ Nat.mod_lt _ (Nat.pos_of_ne_zero hd)
      · exact hs x h

/-- C9.  From the empty set, the rejection-sampling loop terminates with a
set of exactly `mtry` distinct indices below `d` whenever `mtry ≤ d` and
the stream keeps hitting every residue class; when `mtry > d` it can never
terminate, with any amount of fuel. -/
theorem generateRandomTableIndicies_spec :
    ∀ (f : ℕ → ℕ) (d mtry pos N : ℕ),
      (mtry ≤ d → coversAll f d pos N →
        ∃ s pos', genIndicesLoop f d mtry N ∅ pos = .ok (s, pos') ∧
          s.card = mtry ∧ ∀ x ∈ s, x < d) ∧
      (d < mtry →
        ∀ g s pos', genIndicesLoop f d mtry g ∅ pos ≠ .ok (s, pos')) := by
  intro f d mtry pos N
  constructor
  · intro hmd hcov
    obtain ⟨s', pos', h⟩ := genLoop_term f d mtry hmd N ∅ pos
      (fun r hr => Or.inr (hcov r hr))
    obtain ⟨h1, h2⟩ := genLoop_ok f d mtry N ∅ pos s' pos' h
    refine ⟨s', pos', h, h1 (by simp), fun x hx => ?_⟩
    rcases h2 x hx with h' | h'
    · simp at h'
    · exact h'
  · intro hdm g s pos'
    exact genLoop_stuck f d mtry hdm g ∅ pos (by simp) s pos'

/-- Witness for C9: the identity stream covers both residues modulo 2
within two draws, so two distinct features out of two are found. -/
theorem generateRandomTableIndicies_witness :
    (2 : ℕ) ≤ 2 ∧ coversAll id 2 0 2 ∧
    (∃ s pos', genIndicesLoop id 2 2 2 ∅ 0 = .ok (s, pos') ∧
      s.card = 2 ∧ ∀ x ∈ s, x < 2) :=
  ⟨by decide, by decide,
    (generateRandomTableIndicies_spec id 2 2 0 2).1 (by decide) (by decide)⟩

/-! ### C7: determinism of training under a fixed random stream -/

/-- C7.  Single-task training is a pure function of the random stream: two
runs over the same dataset and configuration that read the same stream
produce identical ensembles, for classification and for regression. -/
theorem train_deterministic :
    ∀ (cfg : RFConfig) (inputs : List RVec) (clab : List ℕ) (K : ℕ)
      (rlab : List RVec) (L : ℕ) (f g : ℕ → ℕ) (gfuel : ℕ),
      (∀ i, f i = g i) →
      trainC cfg inputs clab K f gfuel = trainC cfg inputs clab K g gfuel ∧
      trainR cfg inputs rlab L f gfuel = trainR cfg inputs rlab L g gfuel := by
  intro cfg inputs clab K rlab L f g gfuel h
  have hfg : f = g := funext h
  subst hfg
  exact ⟨rfl, rfl⟩

/-- Witness for C7: a concrete two-row dataset trained twice with the same
stream. -/
theorem train_deterministic_witness :
    trainC ⟨1, 1, 1, 1/2⟩ [[(0 : ℚ)], [1]] [0, 1] 2 (fun i => i) 4 =
      trainC ⟨1, 1, 1, 1/2⟩ [[(0 : ℚ)], [1]] [0, 1] 2 (fun i => i) 4 ∧
    trainR ⟨1, 1, 1, 1/2⟩ [[(0 : ℚ)], [1]] [[0], [1]] 1 (fun i => i) 4 =
      trainR ⟨1, 1, 1, 1/2⟩ [[(0 : ℚ)], [1]] [[0], [1]] 1 (fun i => i) 4 :=
  train_deterministic ⟨1, 1, 1, 1/2⟩ [[(0 : ℚ)], [1]] [0, 1] 2 [[0], [1]] 1
    (fun i => i) (fun i => i) 4 (fun _ => rfl)

/-! ### C2: splitAttributeTables -/

theorem hashAux_succ (w : AttributeTable) (v id m : ℕ) :
    hashAux w v id (m + 1) =
      if (w.getD m dfltA).id = id then some (decide (m ≤ v)) else hashAux w v id m := rfl

theorem take_succ_ids (w : AttributeTable) (m : ℕ) (hm : m < w.length) :
    idsOf (w.take (m + 1)) = idsOf (w.take m) ++ [(w.getD m dfltA).id] := by
  have h1 : w.take (m + 1) = w.take m ++ [w[m]] := by
    rw [List.take_succ, List.getElem?_eq_getElem hm]
    rfl
  rw [idsOf, h1, List.map_append, List.getD_eq_getElem _ _ hm]
  rfl

theorem hashAux_eq_none (w : AttributeTable) (v id : ℕ) :
    ∀ m, m ≤ w.length → id ∉ idsOf (w.take m) → hashAux w v id m = none := by
  intro m
  induction m with
  | zero => intro _ _; rfl
  | succ k ih =>
    intro hm hnot
    have hklt : k < w.length := by omega
    rw [take_succ_ids w k hklt] at hnot
    simp only [List.mem_append, List.mem_singleton, not_or] at hnot
    have hne : ¬ (w.getD k dfltA).id = id := fun h => hnot.2 h.symm
    rw [hashAux_succ, if_neg hne]
    exact ih (by omega) hnot.1

theorem hashAux_eq_some (w : AttributeTable) (v id : ℕ) (hnd : (idsOf w).Nodup) :
    ∀ m p, m ≤ w.length → p < m → (w.getD p dfltA).id = id →
      hashAux w v id m = some (decide (p ≤ v)) := by
  intro m
  induction m with
  | zero => intro p _ hp; omega
  | succ k ih =>
    intro p hm hp hpid
    have hklt : k < w.length := by omega
    by_cases heq : (w.getD k dfltA).id = id
    · have hpm : p = k := by
        by_contra hne
        have hplt : p < w.length := by omega
        have hplt0 : p < (idsOf w).length := by simpa [idsOf] using hplt
        have hklt0 : k < (idsOf w).length := by simpa [idsOf] using hklt
        have h1 : (idsOf w).get ⟨p, hplt0⟩ = (idsOf w).get ⟨k, hklt0⟩ := by
          simp only [List.get_eq_getElem, idsOf, List.getElem_map]
          rw [← List.getD_eq_getElem w dfltA hplt, ← List.getD_eq_getElem w dfltA hklt,
            hpid, heq]
        exact hne ((List.Nodup.getElem_inj_iff hnd).mp h1)
      subst hpm
      rw [hashAux_succ, if_pos heq]
    · have hplt : p < k := by
        rcases Nat.lt_or_ge p k with h | h
        · exact h
        · exact absurd (by omega : p = k) (fun he => heq (he ▸ hpid))
      rw [hashAux_succ, if_neg heq]
      exact ih p (by omega) hplt hpid

theorem hashGet_mem_take (w : AttributeTable) (v x : ℕ) (hnd : (idsOf w).Nodup)
    (hx : x ∈ idsOf w) :
    ((hashGet w v x).getD false = true ↔ x ∈ idsOf (w.take (v + 1))) := by
  obtain ⟨p, hp, hpx⟩ := List.mem_iff_getElem.mp hx
  have hplen : p < w.length := by simpa [idsOf] using hp
  have hpid : (w.getD p dfltA).id = x := by
    rw [List.getD_eq_getElem _ _ hplen]
    simpa [idsOf] using hpx
  rw [hashGet, hashAux_eq_some w v x hnd w.length p le_rfl hplen hpid]
  simp only [Option.getD_some, decide_eq_true_eq]
  constructor
  · intro hpv
    have hptake : p < (w.take (v + 1)).length := by
      simp only [List.length_take]
      omega
    refine List.mem_iff_getElem.mpr ⟨p, by simpa [idsOf] using hptake, ?_⟩
    simp only [idsOf, List.getElem_map, List.getElem_take]
    rw [← List.getD_eq_getElem w dfltA hplen]
    exact hpid
  · intro hmem
    obtain ⟨q, hq, hqx⟩ := List.mem_iff_getElem.mp hmem
    have hqlen : q < (w.take (v + 1)).length := by simpa [idsOf] using hq
    have hqv : q < v + 1 := by
      have := List.length_take (v + 1) w
      omega
    have hqw : q < w.length := by
      have := List.length_take (v + 1) w
      omega
    have hqw0 : q < (idsOf w).length := by simpa [idsOf] using hqw
    have hplen0 : p < (idsOf w).length := by simpa [idsOf] using hplen
    have hqid : (idsOf w).get ⟨q, hqw0⟩ = x := by
      simp only [List.get_eq_getElem, idsOf, List.getElem_map]
      simpa [idsOf, List.getElem_take] using hqx
    have hpx0 : (idsOf w).get ⟨p, hplen0⟩ = x := hpx
    have hqp : q = p := by
      have h1 : (idsOf w).get ⟨q, hqw0⟩ = (idsOf w).get ⟨p, hplen0⟩ :=
        hqid.trans hpx0.symm
      exact (List.Nodup.getElem_inj_iff hnd).mp h1
    omega

theorem hashGet_not_mem (w : AttributeTable) (v x : ℕ) (hx : x ∉ idsOf w) :
    (hashGet w v x).getD false = false := by
  rw [hashGet, hashAux_eq_none w v x w.length le_rfl (by simpa using hx)]
  rfl

/-- C2.  For index-aligned, per-feature sorted attribute tables, the table
splitter yields, for every feature, a left/right pair whose lengths sum to
the parent's, whose left part holds exactly the rows whose id sits at a
position `<= valIndex` in the winning feature's table, and which are
sublists of the parent (relative order kept), hence still sorted. -/
theorem splitAttributeTables_spec :
    ∀ (tables : AttributeTables) (index valIndex : ℕ),
      index < tables.length →
      (idsOf (tables.getD index [])).Nodup →
      (∀ t ∈ tables, (idsOf t).Perm (idsOf (tables.getD index []))) →
      (∀ t ∈ tables, t.Pairwise (fun a b => a.value ≤ b.value)) →
      (splitAttributeTables tables index valIndex).1.length = tables.length ∧
      (splitAttributeTables tables index valIndex).2.length = tables.length ∧
      ∀ k, k < tables.length →
        ((splitAttributeTables tables index valIndex).1.getD k []).length +
            ((splitAttributeTables tables index valIndex).2.getD k []).length =
          (tables.getD k []).length ∧
        (∀ e, e ∈ (splitAttributeTables tables index valIndex).1.getD k [] ↔
          e ∈ tables.getD k [] ∧
            e.id ∈ idsOf ((tables.getD index []).take (valIndex + 1))) ∧
        (∀ e, e ∈ (splitAttributeTables tables index valIndex).2.getD k [] ↔
          e ∈ tables.getD k [] ∧
            e.id ∉ idsOf ((tables.getD index []).take (valIndex + 1))) ∧
        ((splitAttributeTables tables index valIndex).1.getD k []).Sublist
          (tables.getD k []) ∧
        ((splitAttributeTables tables index valIndex).2.getD k []).Sublist
          (tables.getD k []) ∧
        ((splitAttributeTables tables index valIndex).1.getD k []).Pairwise
          (fun a b => a.value ≤ b.value) ∧
        ((splitAttributeTables tables index valIndex).2.getD k []).Pairwise
          (fun a b => a.value ≤ b.value) := by
  intro tables index valIndex hidx hnd hperm hsort
  set w := tables.getD index [] with hw
  set p : RFAttribute → Bool := fun e => (hashGet w valIndex e.id).getD false with hp
  have hs1 : (splitAttributeTables tables index valIndex).1 =
      tables.map (fun t => t.filter p) := rfl
  have hs2 : (splitAttributeTables tables index valIndex).2 =
      tables.map (fun t => t.filter (fun e => !(p e))) := rfl
  refine ⟨by simp [hs1], by simp [hs2], ?_⟩
  intro k hk
  have hkmem : tables.getD k [] ∈ tables := by
    rw [List.getD_eq_getElem _ _ hk]
    exact List.getElem_mem _
  have hgl : (splitAttributeTables tables index valIndex).1.getD k [] =
      (tables.getD k []).filter p := by
    rw [hs1, List.getD_eq_getElem _ _ (by simpa using hk), List.getElem_map,
      List.getD_eq_getElem _ _ hk]
  have hgr : (splitAttributeTables tables index valIndex).2.getD k [] =
      (tables.getD k []).filter (fun e => !(p e)) := by
    rw [hs2, List.getD_eq_getElem _ _ (by simpa using hk), List.getElem_map,
      List.getD_eq_getElem _ _ hk]
  have hmemw : ∀ e ∈ tables.getD k [], e.id ∈ idsOf w := by
    intro e he
    exact (hperm _ hkmem).mem_iff.mp (List.mem_map_of_mem _ he)
  have hpiff : ∀ e ∈ tables.getD k [],
      (p e = true ↔ e.id ∈ idsOf (w.take (valIndex + 1))) := by
    intro e he
    exact hashGet_mem_take w valIndex e.id hnd (hmemw e he)
  refine ⟨?_, ?_, ?_, ?_, ?_, ?_, ?_⟩
  · rw [hgl, hgr]
    have := (List.filter_append_perm p (tables.getD k [])).length_eq
    simpa using this
  · intro e
    rw [hgl, List.mem_filter]
    constructor
    · rintro ⟨he, hpe⟩
      exact ⟨he, (hpiff e he).mp hpe⟩
    · rintro ⟨he, hmem⟩
      exact ⟨he, (hpiff e he).mpr hmem⟩
  · intro e
    rw [hgr, List.mem_filter]
    constructor
    · rintro ⟨he, hpe⟩
      have hfalse : p e = false := by simpa using hpe
      refine ⟨he, fun hmem => ?_⟩
      rw [(hpiff e he).mpr hmem] at hfalse
      cases hfalse
    · rintro ⟨he, hmem⟩
      refine ⟨he, ?_⟩
      cases hq : p e
      · rfl
      · exact ((hmem ((hpiff e he).mp hq))).elim
  · rw [hgl]
    exact List.filter_sublist _
  · rw [hgr]
    exact List.filter_sublist _
  · rw [hgl]
    exact (hsort _ hkmem).sublist (List.filter_sublist _)
  · rw [hgr]
    exact (hsort _ hkmem).sublist (List.filter_sublist _)

/-- Witness for C2: two aligned sorted tables over rows `0, 1`, split on
feature `0` at boundary position `0`. -/
theorem splitAttributeTables_witness :
    (0 : ℕ) < ([[⟨0, 0⟩, ⟨1, 1⟩], [⟨5, 1⟩, ⟨7, 0⟩]] : AttributeTables).length ∧
    ((splitAttributeTables [[⟨0, 0⟩, ⟨1, 1⟩], [⟨5, 1⟩, ⟨7, 0⟩]] 0 0).1.getD 0 []).length +
        ((splitAttributeTables [[⟨0, 0⟩, ⟨1, 1⟩], [⟨5, 1⟩, ⟨7, 0⟩]] 0 0).2.getD 0 []).length =
      (([[⟨0, 0⟩, ⟨1, 1⟩], [⟨5, 1⟩, ⟨7, 0⟩]] : AttributeTables).getD 0 []).length ∧
    (splitAttributeTables [[⟨0, 0⟩, ⟨1, 1⟩], [⟨5, 1⟩, ⟨7, 0⟩]] 0 0).1 =
      [[⟨0, 0⟩], [⟨7, 0⟩]] ∧
    (splitAttributeTables [[⟨0, 0⟩, ⟨1, 1⟩], [⟨5, 1⟩, ⟨7, 0⟩]] 0 0).2 =
      [[⟨1, 1⟩], [⟨5, 1⟩]] :=
  ⟨by decide,
    ((splitAttributeTables_spec [[⟨0, 0⟩, ⟨1, 1⟩], [⟨5, 1⟩, ⟨7, 0⟩]] 0 0
      (by decide) (by decide) (by decide)
      (by with_unfolding_all decide)).2.2 0 (by decide)).1,
    by with_unfolding_all decide, by with_unfolding_all decide⟩

/-! ### C1: the split search as a first-strict-minimum scan -/

theorem selBest_cons {α : Type} (b c : ℚ × α) (cs : List (ℚ × α)) :
    selBest b (c :: cs) = selBest (if c.1 < b.1 then c else b) cs := rfl

theorem selBest_append {α : Type} (b : ℚ × α) (l1 l2 : List (ℚ × α)) :
    selBest b (l1 ++ l2) = selBest (selBest b l1) l2 := by
  simp [selBest, List.foldl_append]

theorem selBestR_cons {α : Type} (b : ℚ × Bool × α) (c : ℚ × α) (cs : List (ℚ × α)) :
    selBestR b (c :: cs) =
      selBestR (if c.1 < b.1 ∨ b.1 < 0 then (c.1, true, c.2) else b) cs := rfl

theorem selBestR_append {α : Type} (b : ℚ × Bool × α) (l1 l2 : List (ℚ × α)) :
    selBestR b (l1 ++ l2) = selBestR (selBestR b l1) l2 := by
  simp [selBestR, List.foldl_append]

theorem cntBelow_succ (lab : ℕ → ℕ) (K : ℕ) (tab : AttributeTable) (j : ℕ) :
    cntBelow lab K tab (j + 1) =
      bump32 (cntBelow lab K tab j) (lab (tab.getD j dfltA).id) := by
  simp only [cntBelow, List.range_succ, List.foldl_append, List.foldl_cons, List.foldl_nil]

theorem cntAbove_succ (lab : ℕ → ℕ) (cA : ClassVector) (tab : AttributeTable) (j : ℕ) :
    cntAbove lab cA tab (j + 1) =
      dec32 (cntAbove lab cA tab j) (lab (tab.getD j dfltA).id) := by
  simp only [cntAbove, List.range_succ, List.foldl_append, List.foldl_cons, List.foldl_nil]

theorem innerC_step_none (lab : ℕ → ℕ) (K : ℕ) (cA : ClassVector)
    (tab : AttributeTable) (n a j : ℕ) (best : ℚ × BestC) (hj : 1 ≤ j)
    (hc : candAtC lab K cA tab n a j = none) :
    innerC lab tab n a (cntBelow lab K tab (j - 1), cntAbove lab cA tab (j - 1), best) j =
      (cntBelow lab K tab j, cntAbove lab cA tab j, best) := by
  have hne : ¬ (tab.getD (j - 1) dfltA).value ≠ (tab.getD j dfltA).value := by
    intro h
    rw [candAtC, if_pos h] at hc
    cases hc
  have hb : bump32 (cntBelow lab K tab (j - 1)) (lab (tab.getD (j - 1) dfltA).id) =
      cntBelow lab K tab j := by
    rw [← cntBelow_succ]
    congr 1
    omega
  have ha : dec32 (cntAbove lab cA tab (j - 1)) (lab (tab.getD (j - 1) dfltA).id) =
      cntAbove lab cA tab j := by
    rw [← cntAbove_succ]
    congr 1
    omega
  simp only [innerC, if_neg hne, hb, ha]

theorem innerC_step_some (lab : ℕ → ℕ) (K : ℕ) (cA : ClassVector)
    (tab : AttributeTable) (n a j : ℕ) (best : ℚ × BestC) (c : ℚ × BestC) (hj : 1 ≤ j)
    (hc : candAtC lab K cA tab n a j = some c) :
    innerC lab tab n a (cntBelow lab K tab (j - 1), cntAbove lab cA tab (j - 1), best) j =
      (cntBelow lab K tab j, cntAbove lab cA tab j, if c.1 < best.1 then c else best) := by
  have hb : bump32 (cntBelow lab K tab (j - 1)) (lab (tab.getD (j - 1) dfltA).id) =
      cntBelow lab K tab j := by
    rw [← cntBelow_succ]
    congr 1
    omega
  have ha : dec32 (cntAbove lab cA tab (j - 1)) (lab (tab.getD (j - 1) dfltA).id) =
      cntAbove lab cA tab j := by
    rw [← cntAbove_succ]
    congr 1
    omega
  by_cases hne : (tab.getD (j - 1) dfltA).value ≠ (tab.getD j dfltA).value
  · simp only [candAtC, if_pos hne] at hc
    simp only [innerC, if_pos hne, hb, ha]
    cases hc
    by_cases himp : ((j : ℚ) * gini (cntBelow lab K tab j) j
        + ((n - j : ℕ) : ℚ) * gini (cntAbove lab cA tab j) (n - j)) < best.1
    · rw [if_pos himp, if_pos himp]
    · rw [if_neg himp, if_neg himp]
  · simp only [candAtC, if_neg hne] at hc
    cases hc

theorem innerC_state (lab : ℕ → ℕ) (K : ℕ) (cA : ClassVector) (tab : AttributeTable)
    (n a : ℕ) :
    ∀ (m j : ℕ) (best : ℚ × BestC), 1 ≤ j →
      (List.range' j m).foldl (innerC lab tab n a)
        (cntBelow lab K tab (j - 1), cntAbove lab cA tab (j - 1), best) =
      (cntBelow lab K tab (j - 1 + m), cntAbove lab cA tab (j - 1 + m),
       selBest best ((List.range' j m).filterMap (candAtC lab K cA tab n a))) := by
  intro m
  induction m with
  | zero =>
    intro j best hj
    simp [selBest]
  | succ m ih =>
    intro j best hj
    rw [List.range'_succ, List.foldl_cons, List.filterMap_cons]
    have hidx : j - 1 + (m + 1) = (j + 1) - 1 + m := by omega
    rcases hcase : candAtC lab K cA tab n a j with _ | c
    · rw [innerC_step_none lab K cA tab n a j best hj hcase]
      rw [show cntBelow lab K tab j = cntBelow lab K tab ((j + 1) - 1) from rfl,
        show cntAbove lab cA tab j = cntAbove lab cA tab ((j + 1) - 1) from rfl,
        ih (j + 1) best (by omega), hidx]
    · rw [innerC_step_some lab K cA tab n a j best c hj hcase]
      rw [show cntBelow lab K tab j = cntBelow lab K tab ((j + 1) - 1) from rfl,
        show cntAbove lab cA tab j = cntAbove lab cA tab ((j + 1) - 1) from rfl,
        ih (j + 1) (if c.1 < best.1 then c else best) (by omega), hidx]
      rw [selBest_cons]

theorem scanFeatureC_eq (lab : ℕ → ℕ) (K : ℕ) (cA : ClassVector)
    (tab : AttributeTable) (n a : ℕ) (best : ℚ × BestC) :
    scanFeatureC lab K cA tab n a best = selBest best (candsFeatureC lab K cA tab n a) := by
  have h0 : (List.replicate K (0 : ℕ), cA, best) =
      (cntBelow lab K tab (1 - 1), cntAbove lab cA tab (1 - 1), best) := rfl
  rw [scanFeatureC, h0, innerC_state lab K cA tab n a (n - 1) 1 best le_rfl]
  rfl

theorem foldl_selBest_map {α β : Type} (g : β → List (ℚ × α)) :
    ∀ (l : List β) (init : ℚ × α),
      l.foldl (fun b x => selBest b (g x)) init = selBest init ((l.map g).flatten) := by
  intro l
  induction l with
  | nil => intro init; simp [selBest]
  | cons x xs ih =>
    intro init
    rw [List.foldl_cons, List.map_cons, List.flatten_cons, selBest_append, ih]

theorem scanC_eq (lab : ℕ → ℕ) (K : ℕ) (tables : AttributeTables)
    (cAbove : ClassVector) (n : ℕ) (idxs : Finset ℕ) :
    scanC lab K tables cAbove n idxs =
      selBest ((n : ℚ) + 1, ⟨0, 0, 0, List.replicate K 0, List.replicate K 0⟩)
        (candsC lab K tables cAbove n idxs) := by
  rw [scanC, candsC]
  have hfn : (fun (best : ℚ × BestC) a =>
      scanFeatureC lab K cAbove (tables.getD a []) n a best) =
      fun best a => selBest best (candsFeatureC lab K cAbove (tables.getD a []) n a) := by
    funext best a
    exact scanFeatureC_eq lab K cAbove (tables.getD a []) n a best
  rw [hfn, foldl_selBest_map]

theorem selBest_argmin {α : Type} :
    ∀ (cs : List (ℚ × α)) (b : ℚ × α),
      (selBest b cs = b ∧ ∀ c ∈ cs, b.1 ≤ c.1) ∨
      (∃ l1 c l2, cs = l1 ++ c :: l2 ∧ selBest b cs = c ∧ c.1 < b.1 ∧
        (∀ x ∈ l1, c.1 < x.1) ∧ ∀ x ∈ cs, c.1 ≤ x.1) := by
  intro cs
  induction cs with
  | nil => intro b; exact Or.inl ⟨rfl, by simp⟩
  | cons c0 rest ih =>
    intro b
    rw [selBest_cons]
    by_cases h0 : c0.1 < b.1
    · rw [if_pos h0]
      rcases ih c0 with ⟨hA, hall⟩ | ⟨l1, c, l2, hsplit, hsel, hlt, hbef, hall⟩
      · refine Or.inr ⟨[], c0, rest, by simp, hA, h0, by simp, ?_⟩
        intro x hx
        rcases List.mem_cons.mp hx with rfl | hx
        · exact le_rfl
        · exact hall x hx
      · refine Or.inr ⟨c0 :: l1, c, l2, by simp [hsplit], hsel, lt_trans hlt h0, ?_, ?_⟩
        · intro x hx
          rcases List.mem_cons.mp hx with rfl | hx
          · exact hlt
          · exact hbef x hx
        · intro x hx
          rcases List.mem_cons.mp hx with rfl | hx
          · exact le_of_lt hlt
          · exact hall x hx
    · rw [if_neg h0]
      have hb0 : b.1 ≤ c0.1 := le_of_not_lt h0
      rcases ih b with ⟨hA, hall⟩ | ⟨l1, c, l2, hsplit, hsel, hlt, hbef, hall⟩
      · refine Or.inl ⟨hA, ?_⟩
        intro x hx
        rcases List.mem_cons.mp hx with rfl | hx
        · exact hb0
        · exact hall x hx
      · refine Or.inr ⟨c0 :: l1, c, l2, by simp [hsplit], hsel, hlt, ?_, ?_⟩
        · intro x hx
          rcases List.mem_cons.mp hx with rfl | hx
          · exact lt_of_lt_of_le hlt hb0
          · exact hbef x hx
        · intro x hx
          rcases List.mem_cons.mp hx with rfl | hx
          · exact le_of_lt (lt_of_lt_of_le hlt hb0)
          · exact hall x hx

theorem selBestR_pos {α : Type} :
    ∀ (cs : List (ℚ × α)) (x : ℚ) (p : α), 0 ≤ x → (∀ c ∈ cs, 0 ≤ c.1) →
      selBestR (x, true, p) cs =
        ((selBest (x, p) cs).1, true, (selBest (x, p) cs).2) := by
  intro cs
  induction cs with
  | nil => intro x p _ _; rfl
  | cons c0 rest ih =>
    intro x p hx hcs
    obtain ⟨q, p0⟩ := c0
    rw [selBestR_cons, selBest_cons]
    by_cases h : q < x
    · have hcond : ((q, p0) : ℚ × α).1 < ((x, true, p) : ℚ × Bool × α).1 ∨
          ((x, true, p) : ℚ × Bool × α).1 < 0 := Or.inl h
      rw [if_pos hcond, if_pos (show ((q, p0) : ℚ × α).1 < ((x, p) : ℚ × α).1 from h)]
      exact ih q p0 (hcs _ (List.mem_cons_self _ _))
        (fun c hc => hcs c (List.mem_cons_of_mem _ hc))
    · have hcond : ¬(((q, p0) : ℚ × α).1 < ((x, true, p) : ℚ × Bool × α).1 ∨
          ((x, true, p) : ℚ × Bool × α).1 < 0) := by
        push_neg
        exact ⟨le_of_not_lt h, hx⟩
      rw [if_neg hcond, if_neg (show ¬ ((q, p0) : ℚ × α).1 < ((x, p) : ℚ × α).1 from h)]
      exact ih x p hx (fun c hc => hcs c (List.mem_cons_of_mem _ hc))

theorem selBestR_argmin {α : Type} :
    ∀ (cs : List (ℚ × α)) (a0 : α), (∀ c ∈ cs, 0 ≤ c.1) →
      (cs = [] ∧ selBestR ((-1 : ℚ), false, a0) cs = (-1, false, a0)) ∨
      (∃ l1 c l2, cs = l1 ++ c :: l2 ∧
        selBestR ((-1 : ℚ), false, a0) cs = (c.1, true, c.2) ∧
        (∀ x ∈ l1, c.1 < x.1) ∧ ∀ x ∈ cs, c.1 ≤ x.1) := by
  intro cs a0 hcs
  cases cs with
  | nil => exact Or.inl ⟨rfl, rfl⟩
  | cons c0 rest =>
    obtain ⟨q, p0⟩ := c0
    have hq : 0 ≤ q := hcs _ (List.mem_cons_self _ _)
    have hrest : ∀ c ∈ rest, 0 ≤ c.1 := fun c hc => hcs c (List.mem_cons_of_mem _ hc)
    rw [selBestR_cons,
      if_pos (Or.inr (by norm_num : (((-1 : ℚ), false, a0) : ℚ × Bool × α).1 < 0)),
      selBestR_pos rest q p0 hq hrest]
    rcases selBest_argmin rest (q, p0) with ⟨hA, hall⟩ |
      ⟨l1, c, l2, hsplit, hsel, hlt, hbef, hall⟩
    · refine Or.inr ⟨[], (q, p0), rest, by simp, by rw [hA], by simp, ?_⟩
      intro x hx
      rcases List.mem_cons.mp hx with rfl | hx
      · exact le_rfl
      · exact hall x hx
    · refine Or.inr ⟨(q, p0) :: l1, c, l2, by simp [hsplit], by rw [hsel], ?_, ?_⟩
      · intro x hx
        rcases List.mem_cons.mp hx with rfl | hx
        · exact hlt
        · exact hbef x hx
      · intro x hx
        rcases List.mem_cons.mp hx with rfl | hx
        · exact le_of_lt hlt
        · exact hall x hx

theorem tss_ok (labels : List RVec) (start len : ℕ) (sumLabel : RVec)
    (h1 : 1 ≤ len) (h2 : start + len ≤ labels.length) :
    totalSumOfSquares labels start len sumLabel =
      .ok (tssVal labels start len sumLabel) := by
  simp only [totalSumOfSquares, if_neg (by omega : ¬ len < 1),
    if_neg (by omega : ¬ labels.length < start + len), tssVal]

theorem except_bind_ok {σ τ : Type} (x : σ) (f : σ → Except BErr τ) :
    (Except.ok x >>= f) = f x := rfl

theorem vsumPref_succ (L : ℕ) (tmp : List RVec) (j : ℕ) :
    vsumPref L tmp (j + 1) = vadd (vsumPref L tmp j) (tmp.getD j []) := by
  simp only [vsumPref, List.range_succ, List.foldl_append, List.foldl_cons, List.foldl_nil]

theorem vsubPref_succ (L : ℕ) (tmp : List RVec) (j : ℕ) :
    vsubPref L tmp (j + 1) = vsub (vsubPref L tmp j) (tmp.getD j []) := by
  simp only [vsubPref, List.range_succ, List.foldl_append, List.foldl_cons, List.foldl_nil]

theorem innerR_step_none (L : ℕ) (tab : AttributeTable) (tmp : List RVec) (n a j : ℕ)
    (best : ℚ × Bool × BestR)
    (hc : candAtR L tmp tab n a j = none) :
    innerR tab tmp n a (vsumPref L tmp j, vsubPref L tmp j, best) j =
      .ok (vsumPref L tmp (j + 1), vsubPref L tmp (j + 1), best) := by
  have hne : ¬ (tab.getD (j - 1) dfltA).value ≠ (tab.getD j dfltA).value := by
    intro h
    rw [candAtR, if_pos h] at hc
    cases hc
  rw [vsumPref_succ, vsubPref_succ]
  simp only [innerR, if_neg hne]
  rfl

theorem innerR_step_some (L : ℕ) (tab : AttributeTable) (tmp : List RVec) (n a j : ℕ)
    (best : ℚ × Bool × BestR) (c : ℚ × BestR)
    (hj : 1 ≤ j) (hjn : j < n) (hlen : n ≤ tmp.length)
    (hc : candAtR L tmp tab n a j = some c) :
    innerR tab tmp n a (vsumPref L tmp j, vsubPref L tmp j, best) j =
      .ok (vsumPref L tmp (j + 1), vsubPref L tmp (j + 1),
        if c.1 < best.1 ∨ best.1 < 0 then (c.1, true, c.2) else best) := by
  by_cases hne : (tab.getD (j - 1) dfltA).value ≠ (tab.getD j dfltA).value
  · rw [candAtR, if_pos hne] at hc
    cases hc
    rw [vsumPref_succ, vsubPref_succ]
    simp only [innerR, if_pos hne]
    rw [tss_ok tmp 0 j (vsumPref L tmp j) (by omega) (by omega),
      tss_ok tmp j (n - j) (vsubPref L tmp j) (by omega) (by omega)]
    rfl
  · rw [candAtR, if_neg hne] at hc
    cases hc

theorem innerR_state (L : ℕ) (tab : AttributeTable) (tmp : List RVec) (n a : ℕ)
    (hlen : n ≤ tmp.length) :
    ∀ (m j : ℕ) (best : ℚ × Bool × BestR), 1 ≤ j → j + m ≤ n →
      (List.range' j m).foldlM (innerR tab tmp n a)
        (vsumPref L tmp j, vsubPref L tmp j, best) =
      .ok (vsumPref L tmp (j + m), vsubPref L tmp (j + m),
        selBestR best ((List.range' j m).filterMap (candAtR L tmp tab n a))) := by
  intro m
  induction m with
  | zero =>
    intro j best hj hjm
    simp [List.foldlM_nil, selBestR]
    rfl
  | succ m ih =>
    intro j best hj hjm
    rw [List.range'_succ, List.foldlM_cons, List.filterMap_cons]
    have hidx : (j + 1) + m = j + (m + 1) := by omega
    rcases hcase : candAtR L tmp tab n a j with _ | c
    · rw [innerR_step_none L tab tmp n a j best hcase, except_bind_ok,
        ih (j + 1) best (by omega) (by omega), hidx]
    · rw [innerR_step_some L tab tmp n a j best c hj (by omega) hlen hcase,
        except_bind_ok,
        ih (j + 1) (if c.1 < best.1 ∨ best.1 < 0 then (c.1, true, c.2) else best)
          (by omega) (by omega),
        hidx, selBestR_cons]

theorem scanFeatureR_eq (labR : ℕ → RVec) (L : ℕ) (tab : AttributeTable) (n a : ℕ)
    (best : ℚ × Bool × BestR) (hn : 1 ≤ n) (hlen : n ≤ tab.length) :
    scanFeatureR labR L tab n a best =
      .ok (selBestR best (candsFeatureR labR L tab n a)) := by
  cases tab with
  | nil => simp at hlen; omega
  | cons e es =>
    have hlen' : n ≤ (labR e.id :: es.map (fun e => labR e.id)).length := by
      simpa using hlen
    show (List.foldlM (innerR (e :: es) (labR e.id :: es.map (fun e => labR e.id)) n a)
        (vsumPref L (labR e.id :: es.map (fun e => labR e.id)) 1,
         vsubPref L (labR e.id :: es.map (fun e => labR e.id)) 1, best)
        (List.range' 1 (n - 1)) >>= fun st => pure st.2.2) =
      Except.ok (selBestR best (candsFeatureR labR L (e :: es) n a))
    rw [innerR_state L (e :: es) (labR e.id :: es.map (fun e => labR e.id)) n a hlen'
      (n - 1) 1 best le_rfl (by omega), except_bind_ok]
    rfl

theorem scanR_fold (labR : ℕ → RVec) (L : ℕ) (tables : AttributeTables) (n : ℕ)
    (hn : 1 ≤ n) :
    ∀ (l : List ℕ) (best : ℚ × Bool × BestR),
      (∀ a ∈ l, n ≤ (tables.getD a []).length) →
      l.foldlM (fun best a => scanFeatureR labR L (tables.getD a []) n a best) best =
      .ok (selBestR best
        ((l.map (fun a => candsFeatureR labR L (tables.getD a []) n a)).flatten)) := by
  intro l
  induction l with
  | nil =>
    intro best _
    simp [List.foldlM_nil, selBestR]
    rfl
  | cons a rest ih =>
    intro best hl
    rw [List.foldlM_cons,
      scanFeatureR_eq labR L _ n a best hn (hl a (List.mem_cons_self _ _)),
      except_bind_ok, ih _ (fun x hx => hl x (List.mem_cons_of_mem _ hx)),
      List.map_cons, List.flatten_cons, selBestR_append]

theorem scanR_eq (labR : ℕ → RVec) (L : ℕ) (tables : AttributeTables) (n : ℕ)
    (idxs : Finset ℕ) (hn : 1 ≤ n)
    (hlen : ∀ a ∈ idxs, n ≤ (tables.getD a []).length) :
    scanR labR L tables n idxs =
      .ok (selBestR ((-1 : ℚ), false, (⟨0, 0, 0, []⟩ : BestR))
        (candsR labR L tables n idxs)) := by
  rw [scanR, candsR]
  exact scanR_fold labR L tables n hn (idxs.sort (· ≤ ·)) _
    (fun a ha => hlen a ((Finset.mem_sort (· ≤ ·)).mp ha))

/-- C1.  Both split searches are first-strict-minimum scans over their
candidate lists: a boundary is a candidate at `i` only when
`tab[i-1].value != tab[i].value`; candidates are scanned feature by
feature (ascending, the iteration order of the chosen `std::set`) and
boundary by boundary; the classification scan starts from the sentinel
`n + 1` and the regression scan from the unset sentinel `-1`; the
running best is replaced only on strictly lower impurity, so the
first-found candidate wins ties. -/
theorem splitSearch_spec :
    (∀ (lab : ℕ → ℕ) (K : ℕ) (tables : AttributeTables) (cAbove : ClassVector)
        (n : ℕ) (idxs : Finset ℕ),
      scanC lab K tables cAbove n idxs =
        selBest ((n : ℚ) + 1,
          (⟨0, 0, 0, List.replicate K 0, List.replicate K 0⟩ : BestC))
          (candsC lab K tables cAbove n idxs)) ∧
    (∀ (labR : ℕ → RVec) (L : ℕ) (tables : AttributeTables) (n : ℕ)
        (idxs : Finset ℕ),
      1 ≤ n → (∀ a ∈ idxs, n ≤ (tables.getD a []).length) →
      scanR labR L tables n idxs =
        .ok (selBestR ((-1 : ℚ), false, (⟨0, 0, 0, []⟩ : BestR))
          (candsR labR L tables n idxs))) ∧
    (∀ (α : Type) (cs : List (ℚ × α)) (b : ℚ × α),
      (selBest b cs = b ∧ ∀ c ∈ cs, b.1 ≤ c.1) ∨
      (∃ (l1 : List (ℚ × α)) (c : ℚ × α) (l2 : List (ℚ × α)),
        cs = l1 ++ c :: l2 ∧ selBest b cs = c ∧ c.1 < b.1 ∧
        (∀ x ∈ l1, c.1 < x.1) ∧ ∀ x ∈ cs, c.1 ≤ x.1)) ∧
    (∀ (α : Type) (cs : List (ℚ × α)) (a0 : α), (∀ c ∈ cs, 0 ≤ c.1) →
      (cs = [] ∧ selBestR ((-1 : ℚ), false, a0) cs = (-1, false, a0)) ∨
      (∃ (l1 : List (ℚ × α)) (c : ℚ × α) (l2 : List (ℚ × α)),
        cs = l1 ++ c :: l2 ∧
        selBestR ((-1 : ℚ), false, a0) cs = (c.1, true, c.2) ∧
        (∀ x ∈ l1, c.1 < x.1) ∧ ∀ x ∈ cs, c.1 ≤ x.1)) :=
  ⟨scanC_eq,
   fun labR L tables n idxs hn hlen => scanR_eq labR L tables n idxs hn hlen,
   fun _ cs b => selBest_argmin cs b,
   fun _ cs a0 hcs => selBestR_argmin cs a0 hcs⟩

/-- Witness for C1: a one-feature, two-row node for both scans. -/
theorem splitSearch_witness :
    (1 : ℕ) ≤ 2 ∧
    (∀ a ∈ ({0} : Finset ℕ),
      2 ≤ (([[⟨0, 0⟩, ⟨1, 1⟩]] : AttributeTables).getD a []).length) ∧
    scanR (fun i => [(i : ℚ)]) 1 [[⟨0, 0⟩, ⟨1, 1⟩]] 2 {0} =
      .ok (selBestR ((-1 : ℚ), false, (⟨0, 0, 0, []⟩ : BestR))
        (candsR (fun i => [(i : ℚ)]) 1 [[⟨0, 0⟩, ⟨1, 1⟩]] 2 {0})) ∧
    scanC (fun i => i) 2 [[⟨0, 0⟩, ⟨1, 1⟩]] [1, 1] 2 {0} =
      selBest (((2 : ℕ) : ℚ) + 1,
        (⟨0, 0, 0, List.replicate 2 0, List.replicate 2 0⟩ : BestC))
        (candsC (fun i => i) 2 [[⟨0, 0⟩, ⟨1, 1⟩]] [1, 1] 2 {0}) :=
  ⟨by decide, by decide,
   splitSearch_spec.2.1 (fun i => [(i : ℚ)]) 1 [[⟨0, 0⟩, ⟨1, 1⟩]] 2 {0}
     (by decide) (by decide),
   splitSearch_spec.1 (fun i => i) 2 [[⟨0, 0⟩, ⟨1, 1⟩]] [1, 1] 2 {0}⟩

/-! ### C3: the flattened preorder layout with heap-style node ids -/

theorem buildTreeC_preflat (nodeSize K mtry d gfuel : ℕ) (lab f : ℕ → ℕ) :
    ∀ (fu : ℕ) (tables : AttributeTables) (cAbove : ClassVector) (nodeId pos : ℕ)
      (t : List NodeInfo) (pos' : ℕ),
      buildTreeC nodeSize K mtry d gfuel lab f fu tables cAbove nodeId pos =
        .ok (t, pos') → PreFlat nodeId t := by
  intro fu
  induction fu with
  | zero =>
    intro tables cAbove nodeId pos t pos' h
    simp [buildTreeC] at h
  | succ fu ih =>
    intro tables cAbove nodeId pos t pos' h
    simp only [buildTreeC] at h
    all_goals try split at h
    all_goals try split at h
    all_goals try split at h
    all_goals try split at h
    all_goals try split at h
    all_goals try split at h
    all_goals try split at h
    all_goals try split at h
    all_goals try cases h
    all_goals
      first
      | exact PreFlat.leaf _ _ rfl rfl rfl
      | exact PreFlat.node _ _ _ _ rfl rfl rfl
          (ih _ _ _ _ _ _ (by assumption)) (ih _ _ _ _ _ _ (by assumption))

theorem buildTreeR_preflat (nodeSize L mtry d gfuel : ℕ) (labR : ℕ → RVec)
    (f : ℕ → ℕ) :
    ∀ (fu : ℕ) (tables : AttributeTables) (labels : List RVec) (nodeId pos : ℕ)
      (t : List NodeInfo) (pos' : ℕ),
      buildTreeR nodeSize L mtry d gfuel labR f fu tables labels nodeId pos =
        .ok (t, pos') → PreFlat nodeId t := by
  intro fu
  induction fu with
  | zero =>
    intro tables labels nodeId pos t pos' h
    simp [buildTreeR] at h
  | succ fu ih =>
    intro tables labels nodeId pos t pos' h
    simp only [buildTreeR] at h
    all_goals try split at h
    all_goals try split at h
    all_goals try split at h
    all_goals try split at h
    all_goals try split at h
    all_goals try split at h
    all_goals try split at h
    all_goals try split at h
    all_goals try cases h
    all_goals
      first
      | exact PreFlat.leaf _ _ rfl rfl rfl
      | exact PreFlat.node _ _ _ _ rfl rfl rfl
          (ih _ _ _ _ _ _ (by assumption)) (ih _ _ _ _ _ _ (by assumption))

/-- C3.  Every tree either buildTree returns is the preorder flattening of
a binary tree: the root call (node id 0) emits the node, then the whole
left subtree, then the whole right subtree; internal node `k` carries the
child ids `2k+1`/`2k+2` and every leaf carries the sentinel ids `0`. -/
theorem buildTree_preorder :
    (∀ (nodeSize K mtry d gfuel : ℕ) (lab f : ℕ → ℕ) (fu : ℕ)
        (tables : AttributeTables) (cAbove : ClassVector) (pos : ℕ)
        (t : List NodeInfo) (pos' : ℕ),
      buildTreeC nodeSize K mtry d gfuel lab f fu tables cAbove 0 pos =
        .ok (t, pos') → PreFlat 0 t) ∧
    (∀ (nodeSize L mtry d gfuel : ℕ) (labR : ℕ → RVec) (f : ℕ → ℕ) (fu : ℕ)
        (tables : AttributeTables) (labels : List RVec) (pos : ℕ)
        (t : List NodeInfo) (pos' : ℕ),
      buildTreeR nodeSize L mtry d gfuel labR f fu tables labels 0 pos =
        .ok (t, pos') → PreFlat 0 t) :=
  ⟨fun nodeSize K mtry d gfuel lab f fu tables cAbove pos t pos' h =>
      buildTreeC_preflat nodeSize K mtry d gfuel lab f fu tables cAbove 0 pos t pos' h,
   fun nodeSize L mtry d gfuel labR f fu tables labels pos t pos' h =>
      buildTreeR_preflat nodeSize L mtry d gfuel labR f fu tables labels 0 pos t pos' h⟩

/-- Witness for C3: a two-row, one-feature node that splits once, for both
the classification and the regression tree builder. -/
theorem buildTree_preorder_witness :
    buildTreeC 1 2 1 1 1 (fun i => i) (fun _ => 0) 3 [[⟨0, 0⟩, ⟨1, 1⟩]] [1, 1] 0 0 =
      .ok ([⟨0, 0, 0, 1, 2, [], 0, 0, 0⟩, ⟨1, 0, 0, 0, 0, [1, 0], 0, 0, 0⟩,
            ⟨2, 0, 0, 0, 0, [0, 1], 0, 0, 0⟩], 1) ∧
    PreFlat 0 [⟨0, 0, 0, 1, 2, [], 0, 0, 0⟩, ⟨1, 0, 0, 0, 0, [1, 0], 0, 0, 0⟩,
      ⟨2, 0, 0, 0, 0, [0, 1], 0, 0, 0⟩] ∧
    buildTreeR 1 1 1 1 1 (fun i => [(i : ℚ)]) (fun _ => 0) 3
        [[⟨0, 0⟩, ⟨1, 1⟩]] [[0], [1]] 0 0 =
      .ok ([⟨0, 0, 0, 1, 2, [1/2], 0, 0, 0⟩, ⟨1, 0, 0, 0, 0, [0], 0, 0, 0⟩,
            ⟨2, 0, 0, 0, 0, [1], 0, 0, 0⟩], 1) ∧
    PreFlat 0 [⟨0, 0, 0, 1, 2, [1/2], 0, 0, 0⟩, ⟨1, 0, 0, 0, 0, [0], 0, 0, 0⟩,
      ⟨2, 0, 0, 0, 0, [1], 0, 0, 0⟩] :=
  ⟨by with_unfolding_all decide,
   buildTree_preorder.1 1 2 1 1 1 (fun i => i) (fun _ => 0) 3
     [[⟨0, 0⟩, ⟨1, 1⟩]] [1, 1] 0 _ 1 (by with_unfolding_all decide),
   by with_unfolding_all decide,
   buildTree_preorder.2 1 1 1 1 1 (fun i => [(i : ℚ)]) (fun _ => 0) 3
     [[⟨0, 0⟩, ⟨1, 1⟩]] [[0], [1]] 0 _ 1 (by with_unfolding_all decide)⟩

/-! ### C10: class-count bookkeeping -/

/-- The counter vector `c` holds, for every class `j < K`, the number of
rows of `ids` whose label is `j`. -/
def countsOk (lab : ℕ → ℕ) (K : ℕ) (ids : List ℕ) (c : ClassVector) : Prop :=
  c.length = K ∧ ∀ j, j < K → c.getD j 0 = ids.countP (fun i => lab i == j)

theorem getD_set_nat (c : List ℕ) (l v j : ℕ) :
    (c.set l v).getD j 0 = if j = l ∧ l < c.length then v else c.getD j 0 := by
  by_cases hl : l < c.length
  · by_cases hj : j = l
    · subst hj
      rw [List.getD_eq_getElem _ _ (by rw [List.length_set]; exact hl), List.getElem_set,
        if_pos rfl, if_pos ⟨rfl, hl⟩]
    · by_cases hjlen : j < c.length
      · rw [List.getD_eq_getElem _ _ (by rw [List.length_set]; exact hjlen),
          List.getElem_set, if_neg (fun h => hj h.symm), if_neg (by tauto),
          List.getD_eq_getElem _ _ hjlen]
      · rw [List.getD_eq_default _ _ (by rw [List.length_set]; omega),
          List.getD_eq_default _ _ (by omega), if_neg (by tauto)]
  · rw [List.set_eq_of_length_le (by omega), if_neg (by tauto)]

theorem getD_replicate_zero (K c : ℕ) : (List.replicate K (0 : ℕ)).getD c 0 = 0 := by
  by_cases hc : c < K
  · rw [List.getD_eq_getElem _ _ (by simpa using hc), List.getElem_replicate]
  · rw [List.getD_eq_default _ _ (by simpa using hc)]

theorem bump32_counts (lab : ℕ → ℕ) (K : ℕ) (ids : List ℕ) (c : ClassVector) (i : ℕ)
    (hco : countsOk lab K ids c) (hlen : ids.length + 1 < W) :
    countsOk lab K (ids ++ [i]) (bump32 c (lab i)) := by
  obtain ⟨hK, hcnt⟩ := hco
  refine ⟨by rw [bump32, List.length_set, hK], ?_⟩
  intro j hj
  rw [bump32, getD_set_nat, List.countP_append]
  by_cases hji : j = lab i
  · rw [if_pos ⟨hji, by omega⟩, ← hji, hcnt j hj]
    have hle : ids.countP (fun i' => lab i' == j) ≤ ids.length := List.countP_le_length _
    rw [Nat.mod_eq_of_lt (by omega)]
    have h1 : List.countP (fun i' => lab i' == j) [i] = 1 := by
      simp [List.countP_cons, hji.symm]
    omega
  · rw [if_neg (by tauto), hcnt j hj]
    have h0 : List.countP (fun i' => lab i' == j) [i] = 0 := by
      simp [List.countP_cons]
      exact fun h => hji h.symm
    omega

theorem cntBelow_counts (lab : ℕ → ℕ) (K : ℕ) (tab : AttributeTable)
    (hW : tab.length < W) :
    ∀ j, j ≤ tab.length → countsOk lab K (idsOf (tab.take j)) (cntBelow lab K tab j) := by
  intro j
  induction j with
  | zero =>
    intro _
    refine ⟨by simp [cntBelow], ?_⟩
    intro c hc
    show (List.replicate K 0).getD c 0 = _
    rw [getD_replicate_zero]
    simp [idsOf]
  | succ j ih =>
    intro hj1
    have hjlt : j < tab.length := by omega
    rw [cntBelow_succ, take_succ_ids tab j hjlt]
    refine bump32_counts lab K _ _ _ (ih (by omega)) ?_
    have : (idsOf (tab.take j)).length = j := by
      simp [idsOf]
      omega
    omega

theorem cntAbove_counts (lab : ℕ → ℕ) (K : ℕ) (base : List ℕ) (cA : ClassVector)
    (tab : AttributeTable) (hperm : (idsOf tab).Perm base)
    (hco : countsOk lab K base cA) (hW : tab.length < W) :
    ∀ j, j ≤ tab.length → countsOk lab K (idsOf (tab.drop j)) (cntAbove lab cA tab j) := by
  intro j
  induction j with
  | zero =>
    intro _
    refine ⟨hco.1, ?_⟩
    intro c hc
    show cA.getD c 0 = _
    rw [hco.2 c hc, List.drop_zero, ← List.Perm.countP_eq _ hperm]
  | succ j ih =>
    intro hj1
    have hjlt : j < tab.length := by omega
    obtain ⟨hlenIH, hcntIH⟩ := ih (by omega)
    have hdropsucc : idsOf (tab.drop j) = (tab.getD j dfltA).id :: idsOf (tab.drop (j + 1)) := by
      rw [idsOf, List.drop_eq_getElem_cons hjlt, List.map_cons,
        List.getD_eq_getElem _ _ hjlt]
      rfl
    rw [cntAbove_succ]
    constructor
    · rw [dec32, List.length_set, hlenIH]
    · intro c hc
      have hcountP_le : ∀ m, (idsOf (tab.drop m)).countP (fun i => lab i == c) ≤ tab.length := by
        intro m
        calc (idsOf (tab.drop m)).countP (fun i => lab i == c) ≤ (idsOf (tab.drop m)).length :=
          List.countP_le_length _
        _ ≤ tab.length := by simp [idsOf]
      rw [dec32, getD_set_nat]
      by_cases hcl : c = lab (tab.getD j dfltA).id
      · rw [if_pos ⟨hcl, by omega⟩, ← hcl, hcntIH c hc, hdropsucc, List.countP_cons]
        have hbeq : (lab (tab.getD j dfltA).id == c) = true := by simp [hcl]
        rw [hbeq]
        have hle := hcountP_le (j + 1)
        have harith : ∀ x : ℕ, x < W →
            (x + 1 + (W - 1)) % W = x := by
          intro x hx
          have h1 : x + 1 + (W - 1) = x + W := by
            have : 1 ≤ W := by norm_num [W]
            omega
          rw [h1, Nat.add_mod_right, Nat.mod_eq_of_lt hx]
        rw [if_pos rfl]
        exact harith _ (by omega)
      · rw [if_neg (by tauto), hcntIH c hc, hdropsucc, List.countP_cons]
        have hbeq : (lab (tab.getD j dfltA).id == c) = false := by
          rw [beq_eq_false_iff_ne]
          exact fun h => hcl h.symm
        rw [hbeq]
        simp

theorem sum_getD (c : List ℕ) : c.sum = ∑ j ∈ Finset.range c.length, c.getD j 0 := by
  induction c with
  | nil => simp
  | cons a l ih =>
    rw [List.sum_cons, ih, List.length_cons, Finset.sum_range_succ']
    simp only [List.getD_cons_succ, List.getD_cons_zero]
    omega

theorem sum_countP_classes (lab : ℕ → ℕ) (K : ℕ) :
    ∀ ids : List ℕ, (∀ i ∈ ids, lab i < K) →
      (∑ j ∈ Finset.range K, ids.countP (fun i => lab i == j)) = ids.length := by
  intro ids
  induction ids with
  | nil => intro _; simp
  | cons i is ih =>
    intro hlab
    have hi : lab i < K := hlab i (List.mem_cons_self _ _)
    have hstep : ∀ j ∈ Finset.range K,
        (i :: is).countP (fun i' => lab i' == j) =
          is.countP (fun i' => lab i' == j) + if lab i = j then 1 else 0 := by
      intro j _
      rw [List.countP_cons]
      simp [beq_iff_eq]
    rw [Finset.sum_congr rfl hstep, Finset.sum_add_distrib,
      ih (fun x hx => hlab x (List.mem_cons_of_mem _ hx)), Finset.sum_ite_eq,
      if_pos (Finset.mem_range.mpr hi), List.length_cons]

theorem countsOk_sum (lab : ℕ → ℕ) (K : ℕ) (ids : List ℕ) (c : ClassVector)
    (hco : countsOk lab K ids c) (hlab : ∀ i ∈ ids, lab i < K) :
    c.sum = ids.length := by
  obtain ⟨hK, hcnt⟩ := hco
  rw [sum_getD, hK,
    Finset.sum_congr rfl (fun j hj => hcnt j (Finset.mem_range.mp hj)),
    sum_countP_classes lab K ids hlab]

/-! ### C10: the split sends each table to aligned left/right children -/

theorem idsOf_filter (p : ℕ → Bool) : ∀ t : AttributeTable,
    idsOf (t.filter (fun e => p e.id)) = (idsOf t).filter p := by
  intro t
  induction t with
  | nil => rfl
  | cons e es ih =>
    simp only [idsOf, List.map_cons, List.filter_cons] at ih ⊢
    cases hpe : p e.id
    · simpa [hpe] using ih
    · simpa [hpe] using ih

theorem split_ids (w : AttributeTable) (v : ℕ) (hnd : (idsOf w).Nodup)
    (t : AttributeTable) (hperm : (idsOf t).Perm (idsOf w)) :
    (idsOf (t.filter (fun e => (hashGet w v e.id).getD false))).Perm
      (idsOf (w.take (v + 1))) ∧
    (idsOf (t.filter (fun e => !(hashGet w v e.id).getD false))).Perm
      (idsOf (w.drop (v + 1))) := by
  have hsplitw : idsOf w = idsOf (w.take (v + 1)) ++ idsOf (w.drop (v + 1)) := by
    rw [idsOf, idsOf, idsOf, ← List.map_append, List.take_append_drop]
  have htake : idsOf (w.take (v + 1)) = (idsOf w).take (v + 1) := by
    rw [idsOf, idsOf, List.map_take]
  have hdrop : idsOf (w.drop (v + 1)) = (idsOf w).drop (v + 1) := by
    rw [idsOf, idsOf, List.map_drop]
  have hdisj : List.Disjoint (idsOf (w.take (v + 1))) (idsOf (w.drop (v + 1))) := by
    have h2 := hnd
    rw [hsplitw, List.nodup_append] at h2
    exact h2.2.2
  have hmemtake : ∀ x ∈ idsOf (w.take (v + 1)),
      ((hashGet w v x).getD false) = true := by
    intro x hx
    have hxw : x ∈ idsOf w := by
      rw [htake] at hx
      exact List.mem_of_mem_take hx
    exact (hashGet_mem_take w v x hnd hxw).mpr hx
  have hmemdrop : ∀ x ∈ idsOf (w.drop (v + 1)),
      ((hashGet w v x).getD false) = false := by
    intro x hx
    have hxw : x ∈ idsOf w := by
      rw [hdrop] at hx
      exact List.mem_of_mem_drop hx
    cases hb : (hashGet w v x).getD false
    · rfl
    · exact absurd ((hashGet_mem_take w v x hnd hxw).mp hb) (fun hmem => hdisj hmem hx)
  have hfw1 : (idsOf w).filter (fun x => (hashGet w v x).getD false) =
      idsOf (w.take (v + 1)) := by
    rw [hsplitw, List.filter_append,
      List.filter_eq_self.mpr hmemtake,
      List.filter_eq_nil_iff.mpr (fun a ha hpa => by rw [hmemdrop a ha] at hpa; cases hpa),
      List.append_nil]
  have hfw2 : (idsOf w).filter (fun x => !(hashGet w v x).getD false) =
      idsOf (w.drop (v + 1)) := by
    rw [hsplitw, List.filter_append,
      List.filter_eq_nil_iff.mpr (fun a ha hpa => by
        rw [hmemtake a ha] at hpa
        cases hpa),
      List.filter_eq_self.mpr (fun a ha => by rw [hmemdrop a ha]; rfl),
      List.nil_append]
  constructor
  · rw [idsOf_filter (fun x => (hashGet w v x).getD false) t, ← hfw1]
    exact hperm.filter _
  · rw [idsOf_filter (fun x => !(hashGet w v x).getD false) t, ← hfw2]
    exact hperm.filter _

/-! ### C10: candidates pin down the accepted boundary -/

theorem candsC_mem (lab : ℕ → ℕ) (K : ℕ) (tables : AttributeTables)
    (cAbove : ClassVector) (n : ℕ) (idxs : Finset ℕ) (c : ℚ × BestC)
    (hc : c ∈ candsC lab K tables cAbove n idxs) :
    ∃ a i, a ∈ idxs ∧ 1 ≤ i ∧ i < n ∧
      c = ((i : ℚ) * gini (cntBelow lab K (tables.getD a []) i) i
            + ((n - i : ℕ) : ℚ) * gini (cntAbove lab cAbove (tables.getD a []) i) (n - i),
           ⟨a, i - 1, ((tables.getD a []).getD (i - 1) dfltA).value,
            cntBelow lab K (tables.getD a []) i,
            cntAbove lab cAbove (tables.getD a []) i⟩) := by
  rw [candsC, List.mem_flatten] at hc
  obtain ⟨l, hl, hcl⟩ := hc
  rw [List.mem_map] at hl
  obtain ⟨a, ha, rfl⟩ := hl
  rw [candsFeatureC, List.mem_filterMap] at hcl
  obtain ⟨i, hi, hcand⟩ := hcl
  rw [List.mem_range'_1] at hi
  rw [candAtC] at hcand
  split at hcand
  · cases hcand
    exact ⟨a, i, (Finset.mem_sort _).mp ha, hi.1, by omega, rfl⟩
  · cases hcand

theorem candsR_mem (labR : ℕ → RVec) (L : ℕ) (tables : AttributeTables) (n : ℕ)
    (idxs : Finset ℕ) (c : ℚ × BestR) (hc : c ∈ candsR labR L tables n idxs) :
    ∃ a i, a ∈ idxs ∧ 1 ≤ i ∧ i < n ∧
      c = ((((i : ℚ) * tssVal ((tables.getD a []).map (fun e => labR e.id)) 0 i
              (vsumPref L ((tables.getD a []).map (fun e => labR e.id)) i)
            + ((n - i : ℕ) : ℚ) *
              tssVal ((tables.getD a []).map (fun e => labR e.id)) i (n - i)
                (vsubPref L ((tables.getD a []).map (fun e => labR e.id)) i)) / (n : ℚ)),
           ⟨a, i - 1, ((tables.getD a []).getD (i - 1) dfltA).value,
            (tables.getD a []).map (fun e => labR e.id)⟩) := by
  rw [candsR, List.mem_flatten] at hc
  obtain ⟨l, hl, hcl⟩ := hc
  rw [List.mem_map] at hl
  obtain ⟨a, ha, rfl⟩ := hl
  rw [candsFeatureR, List.mem_filterMap] at hcl
  obtain ⟨i, hi, hcand⟩ := hcl
  rw [List.mem_range'_1] at hi
  rw [candAtR] at hcand
  split at hcand
  · cases hcand
    exact ⟨a, i, (Finset.mem_sort _).mp ha, hi.1, by omega, rfl⟩
  · cases hcand

theorem normSqr_nonneg (v : RVec) : 0 ≤ normSqr v := by
  refine List.sum_nonneg ?_
  intro x hx
  rw [List.mem_map] at hx
  obtain ⟨y, _, rfl⟩ := hx
  exact mul_self_nonneg y

theorem tssVal_nonneg (labels : List RVec) (start len : ℕ) (sumLabel : RVec) :
    0 ≤ tssVal labels start len sumLabel := by
  refine List.sum_nonneg ?_
  intro x hx
  rw [List.mem_map] at hx
  obtain ⟨y, _, rfl⟩ := hx
  exact normSqr_nonneg _

theorem candsR_nonneg (labR : ℕ → RVec) (L : ℕ) (tables : AttributeTables) (n : ℕ)
    (idxs : Finset ℕ) : ∀ c ∈ candsR labR L tables n idxs, 0 ≤ c.1 := by
  intro c hc
  obtain ⟨a, i, _, _, _, rfl⟩ := candsR_mem labR L tables n idxs c hc
  have h1 := tssVal_nonneg ((tables.getD a []).map (fun e => labR e.id)) 0 i
    (vsumPref L ((tables.getD a []).map (fun e => labR e.id)) i)
  have h2 := tssVal_nonneg ((tables.getD a []).map (fun e => labR e.id)) i (n - i)
    (vsubPref L ((tables.getD a []).map (fun e => labR e.id)) i)
  have hi : (0 : ℚ) ≤ (i : ℚ) := by positivity
  have hni : (0 : ℚ) ≤ ((n - i : ℕ) : ℚ) := by positivity
  have hn : (0 : ℚ) ≤ (n : ℚ) := by positivity
  show 0 ≤ ((i : ℚ) * _ + ((n - i : ℕ) : ℚ) * _) / (n : ℚ)
  positivity

theorem gen_err (f : ℕ → ℕ) (d mtry : ℕ) (hd : d ≠ 0) :
    ∀ (g : ℕ) (s : Finset ℕ) (pos : ℕ) (e : BErr),
      genIndicesLoop f d mtry g s pos = .error e → e = .rng := by
  intro g
  induction g with
  | zero =>
    intro s pos e h
    rw [genIndicesLoop] at h
    split at h
    · cases h
    · cases h
      rfl
  | succ g ih =>
    intro s pos e h
    rw [genIndicesLoop] at h
    split at h
    all_goals try split at h
    all_goals
      first
      | exact absurd (by assumption : d = 0) hd
      | exact ih _ _ _ h
      | cases h

theorem hist_ok (c : ClassVector) (hsum : c.sum ≠ 0) :
    hist c = .ok (c.map (fun (i : ℕ) => (i : ℚ) / (c.sum : ℚ))) := by
  simp [hist, hsum]

/-! ### C10: node invariants and their preservation by a split -/

/-- The classification node invariant: some duplicate-free list `base` of
`n` row ids indexes every attribute table (each table is a permutation of
it), every row's label is a legal class, and `cAbove` counts the labels of
exactly those rows. -/
def CInv (lab : ℕ → ℕ) (K : ℕ) (tables : AttributeTables) (cAbove : ClassVector)
    (n : ℕ) : Prop :=
  ∃ base : List ℕ, base.Nodup ∧ base.length = n ∧
    (∀ t ∈ tables, (idsOf t).Perm base) ∧
    (∀ i ∈ base, lab i < K) ∧ countsOk lab K base cAbove

/-- The regression node invariant: aligned duplicate-free tables of `n`
rows and a label list of the same length. -/
def RInv (tables : AttributeTables) (labels : List RVec) (n : ℕ) : Prop :=
  ∃ base : List ℕ, base.Nodup ∧ base.length = n ∧
    (∀ t ∈ tables, (idsOf t).Perm base) ∧ labels.length = n

theorem CInv_children (lab : ℕ → ℕ) (K : ℕ) (tables : AttributeTables)
    (cAbove : ClassVector) (n : ℕ) (base : List ℕ)
    (hbnd : base.Nodup) (hblen : base.length = n)
    (hbperm : ∀ t ∈ tables, (idsOf t).Perm base)
    (hblab : ∀ i ∈ base, lab i < K) (hbcnt : countsOk lab K base cAbove)
    (hW : n < W) (a i : ℕ) (ha : a < tables.length) (hi1 : 1 ≤ i) (hin : i < n) :
    CInv lab K (splitAttributeTables tables a (i - 1)).1
      (cntBelow lab K (tables.getD a []) i) i ∧
    CInv lab K (splitAttributeTables tables a (i - 1)).2
      (cntAbove lab cAbove (tables.getD a []) i) (n - i) := by
  set w := tables.getD a [] with hwdef
  have hw_mem : w ∈ tables := by
    rw [hwdef, List.getD_eq_getElem _ _ ha]
    exact List.getElem_mem _
  have hw_perm : (idsOf w).Perm base := hbperm w hw_mem
  have hw_nodup : (idsOf w).Nodup := (hw_perm.nodup_iff).mpr hbnd
  have hw_len : w.length = n := by
    have h1 := hw_perm.length_eq
    simpa [idsOf, hblen] using h1
  have hv : i - 1 + 1 = i := by omega
  have hiw : i ≤ w.length := by omega
  have htake : idsOf (w.take i) = (idsOf w).take i := by
    rw [idsOf, idsOf, List.map_take]
  have hdrop : idsOf (w.drop i) = (idsOf w).drop i := by
    rw [idsOf, idsOf, List.map_drop]
  have hidslen : (idsOf w).length = w.length := by simp [idsOf]
  have hWw : w.length < W := by omega
  constructor
  · refine ⟨idsOf (w.take i), ?_, ?_, ?_, ?_, ?_⟩
    · rw [htake]
      exact (List.take_sublist i (idsOf w)).nodup hw_nodup
    · rw [htake, List.length_take]
      omega
    · intro t' ht'
      have hs1 : (splitAttributeTables tables a (i - 1)).1 =
          tables.map (fun t => t.filter
            (fun e => (hashGet w (i - 1) e.id).getD false)) := rfl
      rw [hs1, List.mem_map] at ht'
      obtain ⟨t, ht, rfl⟩ := ht'
      have hpermw : (idsOf t).Perm (idsOf w) := (hbperm t ht).trans hw_perm.symm
      have := (split_ids w (i - 1) hw_nodup t hpermw).1
      rwa [hv] at this
    · intro x hx
      rw [htake] at hx
      exact hblab x (hw_perm.subset (List.mem_of_mem_take hx))
    · exact cntBelow_counts lab K w hWw i hiw
  · refine ⟨idsOf (w.drop i), ?_, ?_, ?_, ?_, ?_⟩
    · rw [hdrop]
      exact (List.drop_sublist i (idsOf w)).nodup hw_nodup
    · rw [hdrop, List.length_drop]
      omega
    · intro t' ht'
      have hs2 : (splitAttributeTables tables a (i - 1)).2 =
          tables.map (fun t => t.filter
            (fun e => !(hashGet w (i - 1) e.id).getD false)) := rfl
      rw [hs2, List.mem_map] at ht'
      obtain ⟨t, ht, rfl⟩ := ht'
      have hpermw : (idsOf t).Perm (idsOf w) := (hbperm t ht).trans hw_perm.symm
      have := (split_ids w (i - 1) hw_nodup t hpermw).2
      rwa [hv] at this
    · intro x hx
      rw [hdrop] at hx
      exact hblab x (hw_perm.subset (List.mem_of_mem_drop hx))
    · exact cntAbove_counts lab K base cAbove w hw_perm hbcnt hWw i hiw

theorem RInv_children (tables : AttributeTables) (n : ℕ) (base : List ℕ)
    (hbnd : base.Nodup) (hblen : base.length = n)
    (hbperm : ∀ t ∈ tables, (idsOf t).Perm base)
    (a i : ℕ) (ha : a < tables.length) (hi1 : 1 ≤ i) (hin : i < n)
    (lLabels rLabels : List RVec)
    (hlL : lLabels.length = i) (hlR : rLabels.length = n - i) :
    RInv (splitAttributeTables tables a (i - 1)).1 lLabels i ∧
    RInv (splitAttributeTables tables a (i - 1)).2 rLabels (n - i) := by
  set w := tables.getD a [] with hwdef
  have hw_mem : w ∈ tables := by
    rw [hwdef, List.getD_eq_getElem _ _ ha]
    exact List.getElem_mem _
  have hw_perm : (idsOf w).Perm base := hbperm w hw_mem
  have hw_nodup : (idsOf w).Nodup := (hw_perm.nodup_iff).mpr hbnd
  have hw_len : w.length = n := by
    have h1 := hw_perm.length_eq
    simpa [idsOf, hblen] using h1
  have hv : i - 1 + 1 = i := by omega
  have htake : idsOf (w.take i) = (idsOf w).take i := by
    rw [idsOf, idsOf, List.map_take]
  have hdrop : idsOf (w.drop i) = (idsOf w).drop i := by
    rw [idsOf, idsOf, List.map_drop]
  have hidslen : (idsOf w).length = w.length := by simp [idsOf]
  constructor
  · refine ⟨idsOf (w.take i), ?_, ?_, ?_, hlL⟩
    · rw [htake]
      exact (List.take_sublist i (idsOf w)).nodup hw_nodup
    · rw [htake, List.length_take]
      omega
    · intro t' ht'
      have hs1 : (splitAttributeTables tables a (i - 1)).1 =
          tables.map (fun t => t.filter
            (fun e => (hashGet w (i - 1) e.id).getD false)) := rfl
      rw [hs1, List.mem_map] at ht'
      obtain ⟨t, ht, rfl⟩ := ht'
      have hpermw : (idsOf t).Perm (idsOf w) := (hbperm t ht).trans hw_perm.symm
      have := (split_ids w (i - 1) hw_nodup t hpermw).1
      rwa [hv] at this
  · refine ⟨idsOf (w.drop i), ?_, ?_, ?_, hlR⟩
    · rw [hdrop]
      exact (List.drop_sublist i (idsOf w)).nodup hw_nodup
    · rw [hdrop, List.length_drop]
      omega
    · intro t' ht'
      have hs2 : (splitAttributeTables tables a (i - 1)).2 =
          tables.map (fun t => t.filter
            (fun e => !(hashGet w (i - 1) e.id).getD false)) := rfl
      rw [hs2, List.mem_map] at ht'
      obtain ⟨t, ht, rfl⟩ := ht'
      have hpermw : (idsOf t).Perm (idsOf w) := (hbperm t ht).trans hw_perm.symm
      have := (split_ids w (i - 1) hw_nodup t hpermw).2
      rwa [hv] at this


/-! ### C10: reachable buildTree calls never hit a modelled C++ failure -/

theorem buildTreeC_safe (nodeSize K mtry d gfuel : ℕ) (lab f : ℕ → ℕ) :
    ∀ (fu n : ℕ) (tables : AttributeTables) (cAbove : ClassVector) (nodeId pos : ℕ),
      CInv lab K tables cAbove n → tables ≠ [] → 1 ≤ n → n < W →
      d = tables.length → n ≤ fu →
      buildTreeC nodeSize K mtry d gfuel lab f fu tables cAbove nodeId pos =
          .error .rng ∨
      ∃ t pos', buildTreeC nodeSize K mtry d gfuel lab f fu tables cAbove nodeId pos =
          .ok (t, pos') := by
  intro fu
  induction fu with
  | zero =>
    intro n tables cAbove nodeId pos _ _ hn _ _ hfu
    omega
  | succ fu ih =>
    intro n tables cAbove nodeId pos hinv hne hn hW hd hfu
    obtain ⟨base, hbnd, hblen, hbperm, hblab, hbcnt⟩ := hinv
    have hlen_t : ∀ t ∈ tables, t.length = n := by
      intro t ht
      have h1 := (hbperm t ht).length_eq
      simpa [idsOf, hblen] using h1
    have hhead : (tables.headD []).length = n := by
      cases tables with
      | nil => exact absurd rfl hne
      | cons t0 ts => exact hlen_t t0 (List.mem_cons_self _ _)
    have hempty : ¬ (tables.isEmpty = true) := by
      cases tables with
      | nil => exact absurd rfl hne
      | cons t0 ts => simp
    have hsum : cAbove.sum = n := by
      rw [countsOk_sum lab K base cAbove hbcnt hblab, hblen]
    have hdne : d ≠ 0 := by
      rw [hd]
      intro hlen0
      exact hne (List.length_eq_zero.mp hlen0)
    simp only [buildTreeC]
    rw [if_neg hempty, hhead]
    by_cases hleaf : gini cAbove n = 0 ∨ n ≤ nodeSize
    · rw [if_pos hleaf, hist_ok cAbove (by omega)]
      right
      exact ⟨_, _, rfl⟩
    · rw [if_neg hleaf]
      obtain ⟨r, hg⟩ : ∃ r, genIndicesLoop f d mtry gfuel ∅ pos = r := ⟨_, rfl⟩
      rcases r with e | ⟨idxs, pos1⟩
      · have he : e = .rng := gen_err f d mtry hdne gfuel ∅ pos e hg
        subst he
        rw [hg]
        left
        rfl
      · simp only [hg]
        by_cases hacc : (scanC lab K tables cAbove n idxs).1 < (n : ℚ) + 1
        · rw [if_pos hacc]
          have hscan := scanC_eq lab K tables cAbove n idxs
          rcases selBest_argmin (candsC lab K tables cAbove n idxs)
              ((n : ℚ) + 1,
               (⟨0, 0, 0, List.replicate K 0, List.replicate K 0⟩ : BestC)) with
            ⟨hA, _⟩ | ⟨l1, c, l2, hsplit, hsel, _, _, _⟩
          · exfalso
            rw [hscan, hA] at hacc
            exact lt_irrefl _ hacc
          · have hcmem : c ∈ candsC lab K tables cAbove n idxs := by
              rw [hsplit]
              exact List.mem_append_right _ (List.mem_cons_self _ _)
            obtain ⟨a, i, haidx, hi1, hin, hceq⟩ :=
              candsC_mem lab K tables cAbove n idxs c hcmem
            have hbest : scanC lab K tables cAbove n idxs = c := hscan.trans hsel
            have ha : a < tables.length := by
              rcases (genLoop_ok f d mtry gfuel ∅ pos idxs pos1 hg).2 a haidx with h2 | h2
              · simp at h2
              · omega
            have hp1 : (scanC lab K tables cAbove n idxs).2.bestAttributeIndex = a := by
              rw [hbest, hceq]
            have hp2 : (scanC lab K tables cAbove n idxs).2.bestAttributeValIndex =
                i - 1 := by
              rw [hbest, hceq]
            have hp3 : (scanC lab K tables cAbove n idxs).2.cBestBelow =
                cntBelow lab K (tables.getD a []) i := by
              rw [hbest, hceq]
            have hp4 : (scanC lab K tables cAbove n idxs).2.cBestAbove =
                cntAbove lab cAbove (tables.getD a []) i := by
              rw [hbest, hceq]
            rw [hp1, hp2, hp3, hp4]
            obtain ⟨hinvL, hinvR⟩ := CInv_children lab K tables cAbove n base hbnd
              hblen hbperm hblab hbcnt hW a i ha hi1 hin
            have hlenmap1 : (splitAttributeTables tables a (i - 1)).1.length =
                tables.length := by
              simp [splitAttributeTables]
            have hlenmap2 : (splitAttributeTables tables a (i - 1)).2.length =
                tables.length := by
              simp [splitAttributeTables]
            have hne1 : (splitAttributeTables tables a (i - 1)).1 ≠ [] := by
              intro hnil
              have h0 : tables.length = 0 := by
                rw [← hlenmap1, hnil]
                rfl
              exact hne (List.length_eq_zero.mp h0)
            have hne2 : (splitAttributeTables tables a (i - 1)).2 ≠ [] := by
              intro hnil
              have h0 : tables.length = 0 := by
                rw [← hlenmap2, hnil]
                rfl
              exact hne (List.length_eq_zero.mp h0)
            rcases ih i (splitAttributeTables tables a (i - 1)).1
                (cntBelow lab K (tables.getD a []) i) (2 * nodeId + 1) pos1 hinvL hne1
                hi1 (by omega) (by rw [hd, hlenmap1]) (by omega) with hL | ⟨lT, pos2, hL⟩
            · simp only [hL]
              first
              | exact Or.inl rfl
              | exact Or.inl trivial
            · simp only [hL]
              rcases ih (n - i) (splitAttributeTables tables a (i - 1)).2
                  (cntAbove lab cAbove (tables.getD a []) i) (2 * nodeId + 2) pos2 hinvR
                  hne2 (by omega) (by omega) (by rw [hd, hlenmap2]) (by omega) with
                hR | ⟨rT, pos3, hR⟩
              · simp only [hR]
                first
                | exact Or.inl rfl
                | exact Or.inl trivial
              · simp only [hR]
                right
                exact ⟨_, _, rfl⟩
        · rw [if_neg hacc, hist_ok cAbove (by omega)]
          right
          exact ⟨_, _, rfl⟩

theorem buildTreeR_safe (nodeSize L mtry d gfuel : ℕ) (labR : ℕ → RVec) (f : ℕ → ℕ) :
    ∀ (fu n : ℕ) (tables : AttributeTables) (labels : List RVec) (nodeId pos : ℕ),
      RInv tables labels n → tables ≠ [] → 1 ≤ n →
      d = tables.length → n ≤ fu →
      buildTreeR nodeSize L mtry d gfuel labR f fu tables labels nodeId pos =
          .error .rng ∨
      ∃ t pos', buildTreeR nodeSize L mtry d gfuel labR f fu tables labels nodeId pos =
          .ok (t, pos') := by
  intro fu
  induction fu with
  | zero =>
    intro n tables labels nodeId pos _ _ hn _ hfu
    omega
  | succ fu ih =>
    intro n tables labels nodeId pos hinv hne hn hd hfu
    obtain ⟨base, hbnd, hblen, hbperm, hllen⟩ := hinv
    have hlen_t : ∀ t ∈ tables, t.length = n := by
      intro t ht
      have h1 := (hbperm t ht).length_eq
      simpa [idsOf, hblen] using h1
    have hhead : (tables.headD []).length = n := by
      cases tables with
      | nil => exact absurd rfl hne
      | cons t0 ts => exact hlen_t t0 (List.mem_cons_self _ _)
    have hempty : ¬ (tables.isEmpty = true) := by
      cases tables with
      | nil => exact absurd rfl hne
      | cons t0 ts => simp
    have hdne : d ≠ 0 := by
      rw [hd]
      intro hlen0
      exact hne (List.length_eq_zero.mp hlen0)
    have havg : ∃ v, average labels = .ok v := by
      cases labels with
      | nil => simp at hllen; omega
      | cons l0 rest => exact ⟨_, rfl⟩
    obtain ⟨avgv, havg⟩ := havg
    simp only [buildTreeR, havg]
    rw [if_neg hempty, hhead]
    by_cases hleaf : n ≤ nodeSize
    · rw [if_pos hleaf]
      right
      exact ⟨_, _, rfl⟩
    · rw [if_neg hleaf]
      obtain ⟨r, hg⟩ : ∃ r, genIndicesLoop f d mtry gfuel ∅ pos = r := ⟨_, rfl⟩
      rcases r with e | ⟨idxs, pos1⟩
      · have he : e = .rng := gen_err f d mtry hdne gfuel ∅ pos e hg
        subst he
        rw [hg]
        left
        rfl
      · simp only [hg]
        have hlenidx : ∀ a ∈ idxs, n ≤ (tables.getD a []).length := by
          intro a haidx
          rcases (genLoop_ok f d mtry gfuel ∅ pos idxs pos1 hg).2 a haidx with h2 | h2
          · simp at h2
          · have ha : a < tables.length := by omega
            have hmem : tables.getD a [] ∈ tables := by
              rw [List.getD_eq_getElem _ _ ha]
              exact List.getElem_mem _
            rw [hlen_t _ hmem]
        have hscan := scanR_eq labR L tables n idxs hn hlenidx
        simp only [hscan]
        rcases selBestR_argmin (candsR labR L tables n idxs) (⟨0, 0, 0, []⟩ : BestR)
            (candsR_nonneg labR L tables n idxs) with
          ⟨_, hresult⟩ | ⟨l1, c, l2, hsplit, hresult, _, _⟩
        · rw [hresult]
          right
          exact ⟨_, _, rfl⟩
        · have hcmem : c ∈ candsR labR L tables n idxs := by
            rw [hsplit]
            exact List.mem_append_right _ (List.mem_cons_self _ _)
          obtain ⟨a, i, haidx, hi1, hin, hceq⟩ :=
            candsR_mem labR L tables n idxs c hcmem
          have ha : a < tables.length := by
            rcases (genLoop_ok f d mtry gfuel ∅ pos idxs pos1 hg).2 a haidx with h2 | h2
            · simp at h2
            · omega
          rw [hresult]
          have hq1 : ((c.1, true, c.2) : ℚ × Bool × BestR).2.2.bestAttributeIndex = a := by
            rw [hceq]
          have hq2 : ((c.1, true, c.2) : ℚ × Bool × BestR).2.2.bestAttributeValIndex =
              i - 1 := by
            rw [hceq]
          have hq3 : ((c.1, true, c.2) : ℚ × Bool × BestR).2.2.bestLabels =
              (tables.getD a []).map (fun e => labR e.id) := by
            rw [hceq]
          rw [if_pos rfl, hq1, hq2, hq3, show i - 1 + 1 = i from by omega]
          have hwlen : (tables.getD a []).length = n := by
            have hmem : tables.getD a [] ∈ tables := by
              rw [List.getD_eq_getElem _ _ ha]
              exact List.getElem_mem _
            exact hlen_t _ hmem
          have htmplen : ((tables.getD a []).map (fun e => labR e.id)).length = n := by
            rw [List.length_map, hwlen]
          obtain ⟨hinvL, hinvR⟩ := RInv_children tables n base hbnd hblen hbperm a i ha
            hi1 hin (((tables.getD a []).map (fun e => labR e.id)).take i)
            (((tables.getD a []).map (fun e => labR e.id)).drop i)
            (by rw [List.length_take, htmplen]; omega)
            (by rw [List.length_drop, htmplen])
          have hlenmap1 : (splitAttributeTables tables a (i - 1)).1.length =
              tables.length := by
            simp [splitAttributeTables]
          have hlenmap2 : (splitAttributeTables tables a (i - 1)).2.length =
              tables.length := by
            simp [splitAttributeTables]
          have hne1 : (splitAttributeTables tables a (i - 1)).1 ≠ [] := by
            intro hnil
            have h0 : tables.length = 0 := by
              rw [← hlenmap1, hnil]
              rfl
            exact hne (List.length_eq_zero.mp h0)
          have hne2 : (splitAttributeTables tables a (i - 1)).2 ≠ [] := by
            intro hnil
            have h0 : tables.length = 0 := by
              rw [← hlenmap2, hnil]
              rfl
            exact hne (List.length_eq_zero.mp h0)
          rcases ih i (splitAttributeTables tables a (i - 1)).1
              (((tables.getD a []).map (fun e => labR e.id)).take i) (2 * nodeId + 1)
              pos1 hinvL hne1 hi1 (by rw [hd, hlenmap1]) (by omega) with
            hL | ⟨lT, pos2, hL⟩
          · simp only [hL]
            first
            | exact Or.inl rfl
            | exact Or.inl trivial
          · simp only [hL]
            rcases ih (n - i) (splitAttributeTables tables a (i - 1)).2
                (((tables.getD a []).map (fun e => labR e.id)).drop i) (2 * nodeId + 2)
                pos2 hinvR hne2 (by omega) (by rw [hd, hlenmap2]) (by omega) with
              hR | ⟨rT, pos3, hR⟩
            · simp only [hR]
              first
              | exact Or.inl rfl
              | exact Or.inl trivial
            · simp only [hR]
              right
              exact ⟨_, _, rfl⟩

/-- C10.  From any root call on aligned non-empty tables (and, for
classification, a consistent class-count vector), every reachable
`buildTree` call is safe: with enough recursion fuel the only possible
failure is exhaustion of the rejection-sampling fuel — never an empty
`hist`/`average` input, a division by zero at a leaf, an empty child
table, or an out-of-range `totalSumOfSquares` call; moreover an accepted
classification split always has its boundary at a position
`p = i - 1 ≤ n - 2`, so both children receive at least one row. -/
theorem buildTree_reachable_safe :
    (∀ (nodeSize K mtry d gfuel : ℕ) (lab f : ℕ → ℕ) (fu n : ℕ)
        (tables : AttributeTables) (cAbove : ClassVector) (nodeId pos : ℕ),
      CInv lab K tables cAbove n → tables ≠ [] → 1 ≤ n → n < W →
      d = tables.length → n ≤ fu →
      ∀ e, buildTreeC nodeSize K mtry d gfuel lab f fu tables cAbove nodeId pos =
          .error e → e = .rng) ∧
    (∀ (nodeSize L mtry d gfuel : ℕ) (labR : ℕ → RVec) (f : ℕ → ℕ) (fu n : ℕ)
        (tables : AttributeTables) (labels : List RVec) (nodeId pos : ℕ),
      RInv tables labels n → tables ≠ [] → 1 ≤ n →
      d = tables.length → n ≤ fu →
      ∀ e, buildTreeR nodeSize L mtry d gfuel labR f fu tables labels nodeId pos =
          .error e → e = .rng) ∧
    (∀ (lab : ℕ → ℕ) (K : ℕ) (tables : AttributeTables) (cAbove : ClassVector)
        (n : ℕ) (idxs : Finset ℕ),
      (scanC lab K tables cAbove n idxs).1 < (n : ℚ) + 1 →
      ∃ i, 1 ≤ i ∧ i ≤ n - 1 ∧
        (scanC lab K tables cAbove n idxs).2.bestAttributeValIndex = i - 1) := by
  refine ⟨?_, ?_, ?_⟩
  · intro nodeSize K mtry d gfuel lab f fu n tables cAbove nodeId pos hinv hne hn hW hd
      hfu e herr
    rcases buildTreeC_safe nodeSize K mtry d gfuel lab f fu n tables cAbove nodeId pos
        hinv hne hn hW hd hfu with h1 | ⟨t, p, h2⟩
    · rw [herr] at h1
      injection h1
    · rw [herr] at h2
      cases h2
  · intro nodeSize L mtry d gfuel labR f fu n tables labels nodeId pos hinv hne hn hd
      hfu e herr
    rcases buildTreeR_safe nodeSize L mtry d gfuel labR f fu n tables labels nodeId pos
        hinv hne hn hd hfu with h1 | ⟨t, p, h2⟩
    · rw [herr] at h1
      injection h1
    · rw [herr] at h2
      cases h2
  · intro lab K tables cAbove n idxs hacc
    have hscan := scanC_eq lab K tables cAbove n idxs
    rcases selBest_argmin (candsC lab K tables cAbove n idxs)
        ((n : ℚ) + 1, (⟨0, 0, 0, List.replicate K 0, List.replicate K 0⟩ : BestC)) with
      ⟨hA, _⟩ | ⟨l1, c, l2, hsplit, hsel, _, _, _⟩
    · exfalso
      rw [hscan, hA] at hacc
      exact lt_irrefl _ hacc
    · have hcmem : c ∈ candsC lab K tables cAbove n idxs := by
        rw [hsplit]
        exact List.mem_append_right _ (List.mem_cons_self _ _)
      obtain ⟨a, i, _, hi1, hin, hceq⟩ := candsC_mem lab K tables cAbove n idxs c hcmem
      refine ⟨i, hi1, by omega, ?_⟩
      rw [hscan, hsel, hceq]

/-- Witness for C10: the two-row, one-feature nodes of the C3 witness
satisfy the invariants, so both builders stay clear of the modelled
failures. -/
theorem buildTree_reachable_safe_witness :
    CInv (fun i => i) 2 [[⟨0, 0⟩, ⟨1, 1⟩]] [1, 1] 2 ∧
    (∀ e, buildTreeC 1 2 1 1 1 (fun i => i) (fun _ => 0) 3
        [[⟨0, 0⟩, ⟨1, 1⟩]] [1, 1] 0 0 = .error e → e = .rng) ∧
    RInv [[⟨0, 0⟩, ⟨1, 1⟩]] [[0], [1]] 2 ∧
    (∀ e, buildTreeR 1 1 1 1 1 (fun i => [(i : ℚ)]) (fun _ => 0) 3
        [[⟨0, 0⟩, ⟨1, 1⟩]] [[0], [1]] 0 0 = .error e → e = .rng) := by
  have hCInv : CInv (fun i => i) 2 [[⟨0, 0⟩, ⟨1, 1⟩]] [1, 1] 2 :=
    ⟨[0, 1], by decide, by decide, by decide, by decide, by decide, by decide⟩
  have hRInv : RInv [[⟨0, 0⟩, ⟨1, 1⟩]] [[0], [1]] 2 :=
    ⟨[0, 1], by decide, by decide, by decide, by decide⟩
  exact ⟨hCInv,
    buildTree_reachable_safe.1 1 2 1 1 1 (fun i => i) (fun _ => 0) 3 2
      [[⟨0, 0⟩, ⟨1, 1⟩]] [1, 1] 0 0 hCInv (by decide) (by decide) (by decide)
      (by decide) (by decide),
    hRInv,
    buildTree_reachable_safe.2.1 1 1 1 1 1 (fun i => [(i : ℚ)]) (fun _ => 0) 3 2
      [[⟨0, 0⟩, ⟨1, 1⟩]] [[0], [1]] 0 0 hRInv (by decide) (by decide) (by decide)
      (by decide)⟩

end RF
